import Mathlib

/-!
# DQMC: time-displaced measurements, bin bookkeeping and configuration files

A shallow embedding of `src/src/dynamic_measure.cpp`, of the driver and file
routines of `src/src/detQMC.cpp`, and of the warm-up default of
`src/src/main.cpp`.

Conventions of the embedding.

* `double` values are exact rationals (`ℚ`); an `Eigen::VectorXd` is a total
  function `Nat → ℚ`, an `Eigen::MatrixXd` a function `Nat → Nat → ℚ`; the
  sizes are carried by the model parameters `ll`, `ls`, `lt`.
* Loop counters and sizes are natural numbers.
* `assert` is taken as active: a violated assertion yields `none`
  (respectively an error value).
* The C library (`cos`, `M_PI`) is a parameter of the measurement routines.
-/

namespace Dqmc

/-! ## Loops -/

/-- Counted loop `for (int k = 0; k < n; ++k) body(k)` threading a state. -/
def forLoop {σ : Type} : Nat → (Nat → σ → σ) → σ → σ
  | 0, _, init => init
  | n + 1, body, init => body n (forLoop n body init)

/-- Counted loop whose body may abort. -/
def forLoopM {σ : Type} : Nat → (Nat → σ → Option σ) → σ → Option σ
  | 0, _, init => some init
  | n + 1, body, init => (forLoopM n body init).bind (body n)

/-! ## Data model -/

/-- An `Eigen::VectorXd`. -/
abbrev Vec := Nat → ℚ

/-- An `Eigen::MatrixXd`. -/
abbrev Mat := Nat → Nat → ℚ

/-- The part of the C math library used by the measurements. -/
structure Libm where
  /-- The function `cos` on doubles. -/
  cos : ℚ → ℚ
  /-- The constant `M_PI`. -/
  M_PI : ℚ

/-- Modelled from the spec: the fields of `Model::Hubbard` (hubbard.h is not
among the sources) that the measurement and file routines read: lattice
sizes, hopping `t`, the configuration sign, the auxiliary field `s(i,l)` and
the per-slice Green's functions of both spins. -/
structure Hubbard where
  ll : Nat
  ls : Nat
  lt : Nat
  t : ℚ
  config_sign : ℚ
  s : Mat
  vec_green_tt_up : Nat → Mat
  vec_green_t0_up : Nat → Mat
  vec_green_0t_up : Nat → Mat
  vec_green_tt_dn : Nat → Mat
  vec_green_t0_dn : Nat → Mat
  vec_green_0t_dn : Nat → Mat

/-- Modelled from the spec: the accumulator `Observable<T>` (observable.h is
not among the sources): the running temporary sum of the active bin, the
sweep count, and the per-bin values. -/
structure Observable (α : Type) where
  tmp_value : α
  counts : Nat
  bin_data : Nat → α

/-- Modelled from the spec: `operator++` of the accumulator counts one more
sweep. -/
def Observable.incr {α : Type} (o : Observable α) : Observable α :=
  { o with counts := o.counts + 1 }

/-- Modelled from the spec: `Observable::clear_temporary` resets the temporary
sum to zero (and the sweep count with it). -/
def Observable.clear_temporary {α : Type} [Zero α] (o : Observable α) : Observable α :=
  { o with tmp_value := 0, counts := 0 }

/-- The state of `Measure::DynamicMeasure`. -/
structure DynamicMeasure where
  nbin : Nat
  q : ℚ × ℚ
  sign : Observable ℚ
  matsubara_greens : Observable Vec
  density_of_states : Observable Vec
  superfluid_stiffness : Observable ℚ

/-- Trace of the leading `n × n` block. -/
def Mat.trace (n : Nat) (g : Mat) : ℚ := ∑ k in Finset.range n, g k k

/-- The statement `v(t) += x` on a vector. -/
def Vec.add_at (v : Vec) (t : Nat) (x : ℚ) : Vec := Function.update v t (v t + x)

/-- The statement `this->matsubara_greens.tmp_value()(t) += x`. -/
def DynamicMeasure.add_matsubara_greens (dm : DynamicMeasure) (t : Nat) (x : ℚ) :
    DynamicMeasure :=
  { dm with matsubara_greens :=
      { dm.matsubara_greens with tmp_value := dm.matsubara_greens.tmp_value.add_at t x } }

/-- The statement `this->density_of_states.tmp_value()(t) += x`. -/
def DynamicMeasure.add_density_of_states (dm : DynamicMeasure) (t : Nat) (x : ℚ) :
    DynamicMeasure :=
  { dm with density_of_states :=
      { dm.density_of_states with tmp_value := dm.density_of_states.tmp_value.add_at t x } }

/-! ## dynamic_measure.cpp -/

/-- `DynamicMeasure::clear_temporary`. -/
def clear_temporary (_h : Hubbard) (dm : DynamicMeasure) : DynamicMeasure :=
  { dm with
    sign := dm.sign.clear_temporary
    matsubara_greens := dm.matsubara_greens.clear_temporary
    density_of_states := dm.density_of_states.clear_temporary
    superfluid_stiffness := dm.superfluid_stiffness.clear_temporary }

/-- The local constant `gt0` of `measure_matsubara_greens` and of
`measure_density_of_states`:
`(t == 0) ? 0.5 * (tt_up[lt-1] + tt_up[lt-1]) : 0.5 * (t0_up[t-1] + t0_up[t-1])`. -/
def gt0 (h : Hubbard) (t : Nat) : Mat :=
  if t = 0 then
    fun a b => (1 / 2 : ℚ) * (h.vec_green_tt_up (h.lt - 1) a b + h.vec_green_tt_up (h.lt - 1) a b)
  else
    fun a b => (1 / 2 : ℚ) * (h.vec_green_t0_up (t - 1) a b + h.vec_green_t0_up (t - 1) a b)

/-- `DynamicMeasure::measure_matsubara_greens`. -/
def measure_matsubara_greens (lib : Libm) (t : Nat) (h : Hubbard) (dm : DynamicMeasure) :
    Option DynamicMeasure :=
  if t < h.lt then
    some (
      forLoop h.ll (fun xi dm =>
        forLoop h.ll (fun yi dm =>
          let i := xi + h.ll * yi
          forLoop h.ll (fun dx dm =>
            forLoop h.ll (fun dy dm =>
              let j := (xi + dx) % h.ll + h.ll * ((yi + dy) % h.ll)
              let rdotq : ℚ := (dx : ℚ) * dm.q.1 + (dy : ℚ) * dm.q.2
              dm.add_matsubara_greens t
                (h.config_sign * lib.cos (-rdotq) * gt0 h t j i / (h.ls : ℚ))) dm) dm) dm) dm)
  else none

/-- `DynamicMeasure::measure_density_of_states`. -/
def measure_density_of_states (t : Nat) (h : Hubbard) (dm : DynamicMeasure) :
    Option DynamicMeasure :=
  if t < h.lt then
    some (dm.add_density_of_states t (h.config_sign * (gt0 h t).trace h.ls / (h.ls : ℚ)))
  else none

/-- The summand of `tmp_rho_s` in `measure_superfluid_stiffness` for slice
counter `l`, base site `(xi, yi)` and displacement `(dx, dy)`. -/
def rho_s_term (lib : Libm) (h : Hubbard) (l xi yi dx dy : Nat) : ℚ :=
  let qx : ℚ × ℚ := (2 * lib.M_PI / (h.ll : ℚ), 0)
  let qy : ℚ × ℚ := (0, 2 * lib.M_PI / (h.ll : ℚ))
  let g00_up := h.vec_green_tt_up (h.lt - 1)
  let g00_dn := h.vec_green_tt_dn (h.lt - 1)
  let tau := if l = 0 then h.lt - 1 else l - 1
  let gt0_up := h.vec_green_t0_up tau
  let g0t_up := h.vec_green_0t_up tau
  let gtt_up := h.vec_green_tt_up tau
  let gt0_dn := h.vec_green_t0_dn tau
  let g0t_dn := h.vec_green_0t_dn tau
  let gtt_dn := h.vec_green_tt_dn tau
  let i := xi + h.ll * yi
  let ipx := (xi + 1) % h.ll + h.ll * yi
  let j := (xi + dx) % h.ll + h.ll * ((yi + dy) % h.ll)
  let jpx := (xi + dx + 1) % h.ll + h.ll * ((yi + dy) % h.ll)
  let factor : ℚ := h.config_sign *
    (lib.cos ((dx : ℚ) * qx.1 + (dy : ℚ) * qx.2) - lib.cos ((dx : ℚ) * qy.1 + (dy : ℚ) * qy.2))
  h.t * h.t * factor * (
    - ( gtt_up j jpx - gtt_up jpx j + gtt_dn j jpx - gtt_dn jpx j ) *
      ( g00_up i ipx - g00_up ipx i + g00_dn i ipx - g00_dn ipx i )
    - g0t_up ipx jpx * gt0_up j i - g0t_dn ipx jpx * gt0_dn j i
    + g0t_up i jpx * gt0_up j ipx + g0t_dn i jpx * gt0_dn j ipx
    + g0t_up ipx j * gt0_up jpx i + g0t_dn ipx j * gt0_dn jpx i
    - g0t_up i j * gt0_up jpx ipx - g0t_dn i j * gt0_dn jpx ipx )

/-- The local accumulator `tmp_rho_s` of `measure_superfluid_stiffness` after
its five nested loops. -/
def tmp_rho_s (lib : Libm) (h : Hubbard) : ℚ :=
  forLoop h.lt (fun l acc =>
    forLoop h.ll (fun xi acc =>
      forLoop h.ll (fun yi acc =>
        forLoop h.ll (fun dx acc =>
          forLoop h.ll (fun dy acc =>
            acc + rho_s_term lib h l xi yi dx dy) acc) acc) acc) acc) 0

/-- `DynamicMeasure::measure_superfluid_stiffness`. -/
def measure_superfluid_stiffness (lib : Libm) (h : Hubbard) (dm : DynamicMeasure) :
    DynamicMeasure :=
  { dm with superfluid_stiffness :=
      { dm.superfluid_stiffness with
        tmp_value := dm.superfluid_stiffness.tmp_value
          + (1 / 4 : ℚ) * tmp_rho_s lib h / (h.ls : ℚ) / (h.ls : ℚ) } }

/-- `DynamicMeasure::time_displaced_measure`. -/
def time_displaced_measure (lib : Libm) (h : Hubbard) (dm : DynamicMeasure) :
    Option DynamicMeasure :=
  let dm1 : DynamicMeasure :=
    { dm with sign := { dm.sign with tmp_value := dm.sign.tmp_value + h.config_sign } }
  (forLoopM h.lt (fun l dm =>
      (measure_matsubara_greens lib l h dm).bind (measure_density_of_states l h)) dm1).map
    (fun dm2 =>
      let dm3 := measure_superfluid_stiffness lib h dm2
      { dm3 with
        sign := dm3.sign.incr
        matsubara_greens := dm3.matsubara_greens.incr
        density_of_states := dm3.density_of_states.incr
        superfluid_stiffness := dm3.superfluid_stiffness.incr })

/-- `DynamicMeasure::normalize_stats`. -/
def normalize_stats (_h : Hubbard) (dm : DynamicMeasure) : DynamicMeasure :=
  let sign : Observable ℚ :=
    { dm.sign with tmp_value := dm.sign.tmp_value / (dm.sign.counts : ℚ) }
  { dm with
    sign := sign
    matsubara_greens := { dm.matsubara_greens with
      tmp_value := fun k =>
        dm.matsubara_greens.tmp_value k / ((dm.matsubara_greens.counts : ℚ) * sign.tmp_value) }
    density_of_states := { dm.density_of_states with
      tmp_value := fun k =>
        dm.density_of_states.tmp_value k / ((dm.density_of_states.counts : ℚ) * sign.tmp_value) }
    superfluid_stiffness := { dm.superfluid_stiffness with
      tmp_value := dm.superfluid_stiffness.tmp_value
        / ((dm.superfluid_stiffness.counts : ℚ) * sign.tmp_value) } }

/-- `DynamicMeasure::write_stats_to_bins`. -/
def write_stats_to_bins (bin : Nat) (_h : Hubbard) (dm : DynamicMeasure) : DynamicMeasure :=
  { dm with
    sign := { dm.sign with
      bin_data := Function.update dm.sign.bin_data bin dm.sign.tmp_value }
    matsubara_greens := { dm.matsubara_greens with
      bin_data := Function.update dm.matsubara_greens.bin_data bin dm.matsubara_greens.tmp_value }
    density_of_states := { dm.density_of_states with
      bin_data := Function.update dm.density_of_states.bin_data bin dm.density_of_states.tmp_value }
    superfluid_stiffness := { dm.superfluid_stiffness with
      bin_data := Function.update dm.superfluid_stiffness.bin_data bin
        dm.superfluid_stiffness.tmp_value } }

/-! ## detQMC.cpp: the driver -/

/-- The calls a driver routine issues, in order (bookkeeping only). -/
inductive Event
  | sweep_0_to_beta
  | sweep_0_to_beta_displaced
  | sweep_beta_to_0
  | measure_time_displaced
  | measure_equal_time
  deriving DecidableEq

/-- The collaborators of the driver that are not among the sources, taken as
parameters: the three sweeps of the model and the equal-time measurement
object with state `E`. -/
structure Engine (E : Type) where
  sweep_0_to_beta : Nat → Hubbard → Hubbard
  sweep_0_to_beta_displaced : Nat → Hubbard → Hubbard
  sweep_beta_to_0 : Nat → Hubbard → Hubbard
  measure_equal_time : Hubbard → E → E
  normalizeStats : Hubbard → E → E
  write_Stats_to_bins : Nat → E → E
  clear : E → E

/-- The state of `detQMC`; `trace` records the calls issued so far. -/
structure DetQMC (E : Type) where
  hubb : Hubbard
  nwrap : Nat
  nwarm : Nat
  nbin : Nat
  nsweep : Nat
  n_between_bins : Nat
  bool_warm_up : Bool
  bool_measure_eqtime : Bool
  bool_measure_dynamic : Bool
  eqtimeMeasure : E
  dynamicMeasure : DynamicMeasure
  trace : List Event

/-- `detQMC::sweep_back_and_forth`. The driver's call
`dynamicMeasure.measure_time_displaced(hubb)` is `time_displaced_measure`. -/
def sweep_back_and_forth {E : Type} (eng : Engine E) (lib : Libm)
    (bool_eqtime bool_dynamic : Bool) (st : DetQMC E) : Option (DetQMC E) :=
  -- sweep forth from 0 to beta
  let fwd : Option (DetQMC E) :=
    if !bool_dynamic then
      some { st with
        hubb := eng.sweep_0_to_beta st.nwrap st.hubb
        trace := st.trace ++ [Event.sweep_0_to_beta] }
    else
      let hubb := eng.sweep_0_to_beta_displaced st.nwrap st.hubb
      (time_displaced_measure lib hubb st.dynamicMeasure).map (fun dm =>
        { st with
          hubb := hubb
          dynamicMeasure := dm
          trace := st.trace ++ [Event.sweep_0_to_beta_displaced, Event.measure_time_displaced] })
  fwd.map (fun st1 =>
    let st2 : DetQMC E :=
      if bool_eqtime then
        { st1 with
          eqtimeMeasure := eng.measure_equal_time st1.hubb st1.eqtimeMeasure
          trace := st1.trace ++ [Event.measure_equal_time] }
      else st1
    -- sweep back from beta to 0
    let st3 : DetQMC E :=
      { st2 with
        hubb := eng.sweep_beta_to_0 st2.nwrap st2.hubb
        trace := st2.trace ++ [Event.sweep_beta_to_0] }
    if bool_eqtime then
      { st3 with
        eqtimeMeasure := eng.measure_equal_time st3.hubb st3.eqtimeMeasure
        trace := st3.trace ++ [Event.measure_equal_time] }
    else st3)

/-- The measuring sweeps of one bin in `run_QMC`:
`for (nsw = 1; nsw <= nsweep/2; ++nsw) sweep_back_and_forth(eqtime, dynamic)`. -/
def measure_sweeps {E : Type} (eng : Engine E) (lib : Libm) (st : DetQMC E) :
    Option (DetQMC E) :=
  forLoopM (st.nsweep / 2) (fun _ st =>
    sweep_back_and_forth eng lib st.bool_measure_eqtime st.bool_measure_dynamic st) st

/-- The close of bin `bin` in `run_QMC` ("analyse statistical data"). The
driver's `normalizeStats`, `write_Stats_to_bins` and `clear` on
`dynamicMeasure` are `normalize_stats`, `write_stats_to_bins` and
`clear_temporary`. -/
def bin_close {E : Type} (eng : Engine E) (bin : Nat) (st : DetQMC E) : DetQMC E :=
  let st1 : DetQMC E :=
    if st.bool_measure_eqtime then
      let normalized := eng.normalizeStats st.hubb st.eqtimeMeasure
      let written := eng.write_Stats_to_bins bin normalized
      { st with eqtimeMeasure := eng.clear written }
    else st
  if st1.bool_measure_dynamic then
    let normalized := normalize_stats st1.hubb st1.dynamicMeasure
    let written := write_stats_to_bins bin st1.hubb normalized
    { st1 with dynamicMeasure := clear_temporary st1.hubb written }
  else st1

/-- The decorrelation sweeps after a bin in `run_QMC`:
`for (n_bw = 0; n_bw < n_between_bins; ++n_bw) sweep_back_and_forth(false, false)`. -/
def between_bins {E : Type} (eng : Engine E) (lib : Libm) (st : DetQMC E) :
    Option (DetQMC E) :=
  forLoopM st.n_between_bins (fun _ st => sweep_back_and_forth eng lib false false st) st

/-- The body of the loop over bins in `run_QMC`. -/
def run_bin {E : Type} (eng : Engine E) (lib : Libm) (bin : Nat) (st : DetQMC E) :
    Option (DetQMC E) :=
  ((measure_sweeps eng lib st).map (bin_close eng bin)).bind (between_bins eng lib)

/-- The first part of `detQMC::run_QMC`: "clear data" and the thermalization
process. -/
def warm_up {E : Type} (eng : Engine E) (lib : Libm) (st : DetQMC E) : Option (DetQMC E) :=
  -- clear data
  let st1 : DetQMC E :=
    if st.bool_measure_eqtime then { st with eqtimeMeasure := eng.clear st.eqtimeMeasure }
    else st
  let st2 : DetQMC E :=
    if st1.bool_measure_dynamic then
      { st1 with dynamicMeasure := clear_temporary st1.hubb st1.dynamicMeasure }
    else st1
  -- thermalization process
  if st2.bool_warm_up then
    forLoopM (st2.nwarm / 2) (fun _ st => sweep_back_and_forth eng lib false false st) st2
  else some st2

/-- `detQMC::run_QMC` (progress display and timing left out): the warm-up,
then the measuring process, a loop over the bins. -/
def run_QMC {E : Type} (eng : Engine E) (lib : Libm) (st : DetQMC E) : Option (DetQMC E) :=
  (warm_up eng lib st).bind (fun st3 =>
    if st3.bool_measure_eqtime || st3.bool_measure_dynamic then
      forLoopM st3.nbin (fun bin st => run_bin eng lib bin st) st3
    else some st3)

/-! ## detQMC.cpp: result files -/

/-- Modelled from the spec: the analysed results `obs_mean_g_kt`,
`obs_err_g_kt`, `obs_mean_rho_s`, `obs_err_rho_s` and the per-bin values
`obs_bin_g_kt` that the file routines read from `dynamicMeasure`. Their
declaration and the routine that fills them are not among the sources, so the
arrays are arbitrary inputs of the file routines. -/
structure DynamicStats where
  obs_mean_g_kt : Vec
  obs_err_g_kt : Vec
  obs_mean_rho_s : ℚ
  obs_err_rho_s : ℚ
  obs_bin_g_kt : Nat → Vec

/-- The index `tau = (l - 1 + hubb.lt) % hubb.lt` of the file routines, in `int`
arithmetic. -/
def tau_of (lt l : Nat) : Nat := ((((l : Int) - 1 + (lt : Int)) % (lt : Int))).toNat

/-- One data row of the dynamic results file: the four values streamed. -/
structure DynamicRow where
  l : Nat
  mean : ℚ
  err : ℚ
  rel_err : ℚ
  deriving DecidableEq

/-- The data rows written by `detQMC::file_output_stats_dynamic`, one per
iteration of its loop over `l` (nothing when `bool_measure_dynamic` is off). -/
def file_output_stats_dynamic (bool_measure_dynamic : Bool) (lt : Nat) (d : DynamicStats) :
    List DynamicRow :=
  if bool_measure_dynamic then
    forLoop lt (fun l out =>
      let tau := tau_of lt l
      out ++ [{ l := l
                mean := d.obs_mean_g_kt tau
                err := d.obs_err_g_kt tau
                rel_err := d.obs_err_g_kt tau / d.obs_mean_g_kt tau }]) []
  else []

/-- The values written by `detQMC::file_output_stats_in_bins_dynamic` after the
leading line `nbin`: for every bin its label and then one value per `l`. -/
def file_output_stats_in_bins_dynamic (bool_measure_dynamic : Bool) (nbin lt : Nat)
    (d : DynamicStats) : List (Nat × List ℚ) :=
  if bool_measure_dynamic then
    forLoop nbin (fun bin out =>
      out ++ [(bin, forLoop lt (fun l vals => vals ++ [d.obs_bin_g_kt bin (tau_of lt l)]) [])]) []
  else []

/-! ## detQMC.cpp: auxiliary-field configuration files -/

/-- Formatting and parsing of `double` by the stream library, taken as
parameters. -/
structure NumFormat where
  /-- The text `operator<<` produces for a double. -/
  put_double : ℚ → List Char
  /-- The function `boost::lexical_cast<double>`. -/
  lexical_cast_double : List Char → Option ℚ

/-- Decimal text of a natural number, most significant digit first. -/
def put_nat (n : Nat) : List Char :=
  if n = 0 then ['0'] else ((Nat.digits 10 n).reverse.map Nat.digitChar)

/-- The text `operator<<` produces for an `int`. -/
def put_int (v : Int) : List Char :=
  if v < 0 then '-' :: put_nat v.natAbs else put_nat v.natAbs

/-- Right-aligned output in a field of width `w` (`std::setw(w)` with
`std::ios::right`): padding only, never truncation. -/
def setw (w : Nat) (text : List Char) : List Char :=
  List.replicate (w - text.length) ' ' ++ text

/-- One line written by `file_output_aux_field_configs`. -/
def aux_field_row (io : NumFormat) (h : Hubbard) (l i : Nat) : List Char :=
  setw 15 (put_int l) ++ setw 15 (put_int i) ++ setw 15 (io.put_double (h.s i l))

/-- The lines written by `detQMC::file_output_aux_field_configs`. -/
def file_output_aux_field_configs (io : NumFormat) (h : Hubbard) : List (List Char) :=
  forLoop h.lt (fun l out =>
    forLoop h.ls (fun i out => out ++ [aux_field_row io h l i]) out) []

/-- The tokens of a line: `boost::split` on `' '` with `token_compress_on`,
then removal of the empty strings. Compression only drops empty tokens
between neighbouring separators, which the removal drops as well. -/
def split_tokens (line : List Char) : List (List Char) :=
  (line.splitOn ' ').filter (fun tok => !tok.isEmpty)

/-- Value of a string of decimal digits. -/
def digits_value (digs : List Char) : Nat :=
  digs.foldl (fun acc c => 10 * acc + (c.toNat - '0'.toNat)) 0

/-- The function `boost::lexical_cast<int>`: an optional sign and a non-empty
string of digits, the value within the range of `int`; `none` is the
exception `bad_lexical_cast`. -/
def lexical_cast_int (tok : List Char) : Option Int :=
  let signed : Bool × List Char :=
    match tok with
    | '-' :: rest => (true, rest)
    | '+' :: rest => (false, rest)
    | rest => (false, rest)
  let digs := signed.2
  if digs.isEmpty || !digs.all Char.isDigit then none
  else
    let v : Int := if signed.1 then - (digits_value digs : Int) else (digits_value digs : Int)
    if - (2 : Int) ^ 31 ≤ v ∧ v < (2 : Int) ^ 31 then some v else none

/-- The ways `read_aux_field_configs` terminates abnormally. -/
inductive ReadError
  /-- The file cannot be opened (`exit(1)`). -/
  | cannot_open
  /-- A line has fewer than three tokens or a token is not a number. -/
  | bad_row
  /-- A row addresses an entry outside the `ls × lt` field matrix. -/
  | index_out_of_range
  /-- One of the two final size assertions is violated. -/
  | size_mismatch
  deriving DecidableEq

/-- The three numbers `data[0]`, `data[1]`, `data[2]` of a line. -/
def parse_row (io : NumFormat) (line : List Char) : Option (Int × Int × ℚ) :=
  match split_tokens line with
  | d0 :: d1 :: d2 :: _ =>
    (lexical_cast_int d0).bind (fun l =>
      (lexical_cast_int d1).bind (fun i =>
        (io.lexical_cast_double d2).map (fun v => (l, i, v))))
  | _ => none

/-- The state of the reading loop: the model and the locals `lt` and `ls`. -/
structure ReadState where
  hubb : Hubbard
  lt : Int
  ls : Int

/-- The assignments of one iteration of the reading loop for the parsed row
`(l, i, v)`: `hubb.s(i, l) = v; lt = max(lt, l); ls = max(ls, i)`. The field
matrix has `hubb.ls` rows and `hubb.lt` columns and its element access
asserts the index range. -/
def store_row (r : Int × Int × ℚ) (st : ReadState) : Except ReadError ReadState :=
  let l := r.1
  let i := r.2.1
  if 0 ≤ i ∧ i < (st.hubb.ls : Int) ∧ 0 ≤ l ∧ l < (st.hubb.lt : Int) then
    Except.ok
      { hubb := { st.hubb with
          s := Function.update st.hubb.s i.toNat (Function.update (st.hubb.s i.toNat) l.toNat r.2.2) }
        lt := max st.lt l
        ls := max st.ls i }
  else Except.error ReadError.index_out_of_range

/-- The reading loop `while (getline(infile, line))`. -/
def read_rows (io : NumFormat) : List (List Char) → ReadState → Except ReadError ReadState
  | [], st => Except.ok st
  | line :: rest, st =>
    match parse_row io line with
    | none => Except.error ReadError.bad_row
    | some r =>
      match store_row r st with
      | Except.ok st1 => read_rows io rest st1
      | Except.error e => Except.error e

/-- `detQMC::read_aux_field_configs` on the lines of the file (`none`: the
file cannot be opened), up to and including the two size assertions. -/
def read_aux_field_configs (io : NumFormat) (file : Option (List (List Char))) (hubb : Hubbard) :
    Except ReadError Hubbard :=
  match file with
  | none => Except.error ReadError.cannot_open
  | some lines =>
    match read_rows io lines { hubb := hubb, lt := 0, ls := 0 } with
    | Except.error e => Except.error e
    | Except.ok st =>
      if st.lt + 1 = (st.hubb.lt : Int) ∧ st.ls + 1 = (st.hubb.ls : Int) then Except.ok st.hubb
      else Except.error ReadError.size_mismatch

/-! ## Quantities used to state the properties -/

/-- The summand of `measure_matsubara_greens` for base site `(xi, yi)` and displacement
`(dx, dy)` without the factor `config_sign`: `cos(-r.dot(q)) * g(j, i) / ls` for the matrix
`g` used as `gt0`. -/
def matsubara_term (lib : Libm) (q : ℚ × ℚ) (h : Hubbard) (g : Mat) (xi yi dx dy : Nat) : ℚ :=
  lib.cos (-((dx : ℚ) * q.1 + (dy : ℚ) * q.2))
    * g ((xi + dx) % h.ll + h.ll * ((yi + dy) % h.ll)) (xi + h.ll * yi) / (h.ls : ℚ)

/-- The sum of `matsubara_term` over all base sites and displacements: what one call of
`measure_matsubara_greens` adds, divided by `config_sign`. -/
def matsubara_kernel (lib : Libm) (q : ℚ × ℚ) (h : Hubbard) (g : Mat) : ℚ :=
  ∑ xi in Finset.range h.ll, ∑ yi in Finset.range h.ll,
    ∑ dx in Finset.range h.ll, ∑ dy in Finset.range h.ll, matsubara_term lib q h g xi yi dx dy

/-- What one call of `measure_density_of_states` adds, divided by `config_sign`:
`g.trace() / ls` for the matrix `g` used as `gt0`. -/
def density_kernel (h : Hubbard) (g : Mat) : ℚ := g.trace h.ls / (h.ls : ℚ)

/-- What one call of `measure_superfluid_stiffness` adds when the configuration sign is one. -/
def stiffness_kernel (lib : Libm) (h : Hubbard) : ℚ :=
  (1 / 4 : ℚ) * tmp_rho_s lib { h with config_sign := 1 } / (h.ls : ℚ) / (h.ls : ℚ)

/-- The accumulators after one `time_displaced_measure` on the model `h`, in closed form. -/
def measured (lib : Libm) (h : Hubbard) (dm : DynamicMeasure) : DynamicMeasure :=
  { dm with
    sign := { dm.sign with
      tmp_value := dm.sign.tmp_value + h.config_sign
      counts := dm.sign.counts + 1 }
    matsubara_greens := { dm.matsubara_greens with
      tmp_value := fun t =>
        if t < h.lt then
          dm.matsubara_greens.tmp_value t + h.config_sign * matsubara_kernel lib dm.q h (gt0 h t)
        else dm.matsubara_greens.tmp_value t
      counts := dm.matsubara_greens.counts + 1 }
    density_of_states := { dm.density_of_states with
      tmp_value := fun t =>
        if t < h.lt then dm.density_of_states.tmp_value t + h.config_sign * density_kernel h (gt0 h t)
        else dm.density_of_states.tmp_value t
      counts := dm.density_of_states.counts + 1 }
    superfluid_stiffness := { dm.superfluid_stiffness with
      tmp_value := dm.superfluid_stiffness.tmp_value + h.config_sign * stiffness_kernel lib h
      counts := dm.superfluid_stiffness.counts + 1 } }

/-- Green's functions that vanish on every slice. -/
def zero_greens : Nat → Mat := fun _ _ _ => 0

/-- Green's functions equal to the identity matrix on every slice. -/
def unit_greens : Nat → Mat := fun _ a b => if a = b then 1 else 0

/-- A table of `cos` that agrees with the C library at `0` and at `M_PI`, the only arguments
the measurements on a 2 × 2 lattice at momentum zero pass to it; `M_PI` is the double
nearest to π. -/
def sample_libm : Libm where
  cos := fun x => if x = 0 then 1 else if x = 884279719003555 / 281474976710656 then -1 else 0
  M_PI := 884279719003555 / 281474976710656

/-- A 2 × 2 lattice with one time slice, unit hopping, sign `+1`; the spin-up `G(t,0)` and
`G(0,t)` are the identity, all other Green's functions vanish. -/
def sample_hubbard : Hubbard where
  ll := 2
  ls := 4
  lt := 1
  t := 1
  config_sign := 1
  s := fun _ _ => 1
  vec_green_tt_up := zero_greens
  vec_green_t0_up := unit_greens
  vec_green_0t_up := unit_greens
  vec_green_tt_dn := zero_greens
  vec_green_t0_dn := zero_greens
  vec_green_0t_dn := zero_greens

/-- An accumulator with running sum `tmp` after `counts` sweeps. -/
def sample_observable {α : Type} (tmp : α) (counts : Nat) : Observable α where
  tmp_value := tmp
  counts := counts
  bin_data := fun _ => tmp

/-- Accumulators after four sweeps with sign sum `2`. -/
def sample_measure : DynamicMeasure where
  nbin := 2
  q := (0, 0)
  sign := sample_observable 2 4
  matsubara_greens := sample_observable (fun k => (k : ℚ) + 1) 4
  density_of_states := sample_observable (fun k => 2 * (k : ℚ)) 4
  superfluid_stiffness := sample_observable 3 4

/-- The increment the specification gives for one call of `measure_superfluid_stiffness`:
one quarter of the base-site average, `(1/4) * (1/Ls) * Σ_i Σ_l Σ_(dx,dy) ...`, where the
summand is that of the source (`rho_s_term`) and the base sites `i` are the pairs `(xi, yi)`. -/
def spec_stiffness_increment (lib : Libm) (h : Hubbard) : ℚ :=
  (1 / 4 : ℚ) * (1 / (h.ls : ℚ)) *
    ∑ xi in Finset.range h.ll, ∑ yi in Finset.range h.ll, ∑ l in Finset.range h.lt,
      ∑ dx in Finset.range h.ll, ∑ dy in Finset.range h.ll, rho_s_term lib h l xi yi dx dy

/-- The run parameters and switches of the driver, which no routine changes. -/
def DetQMC.setup {E : Type} (st : DetQMC E) : Nat × Nat × Nat × Nat × Nat × Bool × Bool × Bool :=
  (st.nwrap, st.nwarm, st.nbin, st.nsweep, st.n_between_bins,
    st.bool_warm_up, st.bool_measure_eqtime, st.bool_measure_dynamic)

/-- The per-bin values of the four accumulators. -/
def DynamicMeasure.bins (dm : DynamicMeasure) :
    (Nat → ℚ) × (Nat → Vec) × (Nat → Vec) × (Nat → ℚ) :=
  (dm.sign.bin_data, dm.matsubara_greens.bin_data, dm.density_of_states.bin_data,
    dm.superfluid_stiffness.bin_data)

/-- The calls one `sweep_back_and_forth` issues, in order. -/
def sweep_events (bool_eqtime bool_dynamic : Bool) : List Event :=
  (if bool_dynamic then [Event.sweep_0_to_beta_displaced, Event.measure_time_displaced]
    else [Event.sweep_0_to_beta])
  ++ (if bool_eqtime then [Event.measure_equal_time] else [])
  ++ [Event.sweep_beta_to_0]
  ++ (if bool_eqtime then [Event.measure_equal_time] else [])

/-- The values of the four accumulators in bin slot `b`. -/
def DynamicMeasure.slot (dm : DynamicMeasure) (b : Nat) : ℚ × Vec × Vec × ℚ :=
  (dm.sign.bin_data b, dm.matsubara_greens.bin_data b, dm.density_of_states.bin_data b,
    dm.superfluid_stiffness.bin_data b)

/-- The running temporary sums of the four accumulators. -/
def DynamicMeasure.tmps (dm : DynamicMeasure) : ℚ × Vec × Vec × ℚ :=
  (dm.sign.tmp_value, dm.matsubara_greens.tmp_value, dm.density_of_states.tmp_value,
    dm.superfluid_stiffness.tmp_value)

/-- Collaborators that leave the model and the equal-time object as they are. -/
def sample_engine : Engine Unit where
  sweep_0_to_beta := fun _ h => h
  sweep_0_to_beta_displaced := fun _ h => h
  sweep_beta_to_0 := fun _ h => h
  measure_equal_time := fun _ e => e
  normalizeStats := fun _ e => e
  write_Stats_to_bins := fun _ e => e
  clear := fun e => e

/-- A driver with two bins of four sweeps, dynamic measurement switched on. -/
def sample_driver : DetQMC Unit where
  hubb := sample_hubbard
  nwrap := 10
  nwarm := 2
  nbin := 2
  nsweep := 4
  n_between_bins := 1
  bool_warm_up := true
  bool_measure_eqtime := false
  bool_measure_dynamic := true
  eqtimeMeasure := ()
  dynamicMeasure := sample_measure
  trace := []

/-- The row `(l, i, v)` addresses an entry of the `ls × lt` field matrix. -/
def in_range (hubb : Hubbard) (r : Int × Int × ℚ) : Prop :=
  0 ≤ r.2.1 ∧ r.2.1 < (hubb.ls : Int) ∧ 0 ≤ r.1 ∧ r.1 < (hubb.lt : Int)

/-- The number `m` is the largest member of `xs`. -/
def is_largest (xs : List Int) (m : Int) : Prop := m ∈ xs ∧ ∀ x ∈ xs, x ≤ m

instance (xs : List Int) (m : Int) : Decidable (is_largest xs m) := by
  unfold is_largest
  infer_instance

instance (hubb : Hubbard) (r : Int × Int × ℚ) : Decidable (in_range hubb r) := by
  unfold in_range
  infer_instance

/-- The reading loop on rows that are already parsed. -/
def store_rows : List (Int × Int × ℚ) → ReadState → Except ReadError ReadState
  | [], st => Except.ok st
  | r :: rest, st =>
    match store_row r st with
    | Except.ok st1 => store_rows rest st1
    | Except.error e => Except.error e

/-- The value `v` survives the number formatting of the writer: its text is read back as
`v`, is not empty, has no blank and is shorter than the column width. -/
def NumFormat.survives (io : NumFormat) (v : ℚ) : Prop :=
  io.lexical_cast_double (io.put_double v) = some v ∧ io.put_double v ≠ [] ∧
    (∀ c ∈ io.put_double v, c ≠ ' ') ∧ (io.put_double v).length < 15

instance (io : NumFormat) (v : ℚ) : Decidable (io.survives v) := by
  unfold NumFormat.survives
  infer_instance

/-- The rows `l i s(i,l)` of `file_output_aux_field_configs` as numbers, in the order
written. -/
def written_rows (h : Hubbard) : List (Int × Int × ℚ) :=
  ((List.range h.lt).map (fun (l : Nat) =>
    (List.range h.ls).map (fun (i : Nat) => ((l : Int), (i : Int), h.s i l)))).flatten

/-- The text of the values `+1`, `-1` and `0`. -/
def sample_format : NumFormat where
  put_double := fun v => if v = 1 then ['1'] else if v = -1 then ['-', '1'] else ['0']
  lexical_cast_double := fun tok =>
    if tok = ['1'] then some 1 else if tok = ['-', '1'] then some (-1)
    else if tok = ['0'] then some 0 else none

/-- A model with two sites and two time slices and a checkerboard field of `+1` and `-1`. -/
def sample_field : Hubbard :=
  { sample_hubbard with
    ls := 2
    lt := 2
    s := fun i l => if (i + l) % 2 = 0 then 1 else -1 }

/-- A file of two rows, `0 0 1` and `1 1 -1`. -/
def sample_lines : List (List Char) := ["  0 0 1".toList, "1   1 -1".toList]

/-- The slice index `tau = (l == 0) ? lt-1 : l-1` of `measure_superfluid_stiffness`. -/
def stiffness_tau (lt l : Nat) : Nat := if l = 0 then lt - 1 else l - 1

/-- The summand of `tmp_rho_s` as a function of the eight matrices it reads: `g00` of both
spins and, of both spins, `gt0`, `g0t` and `gtt` of the current slice. -/
def rho_s_summand (lib : Libm) (h : Hubbard)
    (g00_up g00_dn gt0_up g0t_up gtt_up gt0_dn g0t_dn gtt_dn : Mat) (xi yi dx dy : Nat) : ℚ :=
  let qx : ℚ × ℚ := (2 * lib.M_PI / (h.ll : ℚ), 0)
  let qy : ℚ × ℚ := (0, 2 * lib.M_PI / (h.ll : ℚ))
  let i := xi + h.ll * yi
  let ipx := (xi + 1) % h.ll + h.ll * yi
  let j := (xi + dx) % h.ll + h.ll * ((yi + dy) % h.ll)
  let jpx := (xi + dx + 1) % h.ll + h.ll * ((yi + dy) % h.ll)
  let factor : ℚ := h.config_sign *
    (lib.cos ((dx : ℚ) * qx.1 + (dy : ℚ) * qx.2) - lib.cos ((dx : ℚ) * qy.1 + (dy : ℚ) * qy.2))
  h.t * h.t * factor * (
    - ( gtt_up j jpx - gtt_up jpx j + gtt_dn j jpx - gtt_dn jpx j ) *
      ( g00_up i ipx - g00_up ipx i + g00_dn i ipx - g00_dn ipx i )
    - g0t_up ipx jpx * gt0_up j i - g0t_dn ipx jpx * gt0_dn j i
    + g0t_up i jpx * gt0_up j ipx + g0t_dn i jpx * gt0_dn j ipx
    + g0t_up ipx j * gt0_up jpx i + g0t_dn ipx j * gt0_dn jpx i
    - g0t_up i j * gt0_up jpx ipx - g0t_dn i j * gt0_dn jpx ipx )

/-- The sweep counts of the four accumulators. -/
def DynamicMeasure.all_counts (dm : DynamicMeasure) : Nat × Nat × Nat × Nat :=
  (dm.sign.counts, dm.matsubara_greens.counts, dm.density_of_states.counts,
    dm.superfluid_stiffness.counts)

/-- Successive calls of `time_displaced_measure`, one for each model state of the list. -/
def measure_all (lib : Libm) : List Hubbard → DynamicMeasure → Option DynamicMeasure
  | [], dm => some dm
  | h :: rest, dm => (time_displaced_measure lib h dm).bind (measure_all lib rest)

/-- The call is one of the three sweeps of the model. -/
def Event.is_sweep : Event → Bool
  | Event.sweep_0_to_beta => true
  | Event.sweep_0_to_beta_displaced => true
  | Event.sweep_beta_to_0 => true
  | _ => false

/-- The number of sweeps among the calls `tr`, a forward and a backward sweep counting as
one sweep each. -/
def sweep_count (tr : List Event) : Nat := tr.countP Event.is_sweep

/-- The sample model with the identity as equal-time spin-up Green's function. -/
def sample_hubbard_eqtime : Hubbard :=
  { sample_hubbard with vec_green_tt_up := unit_greens }

/-- The conversion `(int) x` of a double: truncation toward zero. -/
def int_cast (x : ℚ) : Int := if 0 ≤ x then Int.floor x else Int.ceil x

/-- The options of the command line that enter the number of warm-up sweeps; `none` means
the option is not given. -/
structure CommandLine where
  ll : Option Int
  beta : Option ℚ
  nwarm : Option Int

/-- The value of `nwarm` that `main` hands to `set_Monte_Carlo_params`: the option values
with their defaults (`ll = 4`, `beta = 4.0`, `nwarm = (int)(4 * ll * ll * beta)` evaluated
before parsing), then the recomputation when `ll` or `beta` is given and `nwarm` is not. -/
def main_nwarm (cl : CommandLine) : Int :=
  let ll0 : Int := 4
  let beta0 : ℚ := 4
  let nwarm0 : Int := int_cast (4 * (ll0 : ℚ) * (ll0 : ℚ) * beta0)
  let ll : Int := cl.ll.getD ll0
  let beta : ℚ := cl.beta.getD beta0
  let nwarm : Int := cl.nwarm.getD nwarm0
  if (cl.ll.isSome || cl.beta.isSome) && cl.nwarm.isNone then
    4 * ll * ll * int_cast beta
  else nwarm

/-- The default the option text documents, `4*ll*ll*beta` truncated to an integer. -/
def spec_nwarm (ll : Int) (beta : ℚ) : Int := int_cast (4 * (ll : ℚ) * (ll : ℚ) * beta)

/-- The site index `i = xi + ll * yi` of the base point. -/
def site_i (ll xi yi : Nat) : Nat := xi + ll * yi

/-- The site index `ipx = (xi + 1) % ll + ll * yi`. -/
def site_ipx (ll xi yi : Nat) : Nat := (xi + 1) % ll + ll * yi

/-- The site index `j = (xi + dx) % ll + ll * ((yi + dy) % ll)` of the displaced point. -/
def site_j (ll xi yi dx dy : Nat) : Nat := (xi + dx) % ll + ll * ((yi + dy) % ll)

/-- The site index `jpx = (xi + dx + 1) % ll + ll * ((yi + dy) % ll)`. -/
def site_jpx (ll xi yi dx dy : Nat) : Nat := (xi + dx + 1) % ll + ll * ((yi + dy) % ll)

/-- The summand of `tmp_rho_s` as a function of the eight matrices and of the four site
indices `i`, `ipx`, `j`, `jpx`. -/
def rho_s_at_sites (lib : Libm) (h : Hubbard)
    (g00_up g00_dn gt0_up g0t_up gtt_up gt0_dn g0t_dn gtt_dn : Mat) (dx dy i ipx j jpx : Nat) :
    ℚ :=
  let qx : ℚ × ℚ := (2 * lib.M_PI / (h.ll : ℚ), 0)
  let qy : ℚ × ℚ := (0, 2 * lib.M_PI / (h.ll : ℚ))
  let factor : ℚ := h.config_sign *
    (lib.cos ((dx : ℚ) * qx.1 + (dy : ℚ) * qx.2) - lib.cos ((dx : ℚ) * qy.1 + (dy : ℚ) * qy.2))
  h.t * h.t * factor * (
    - ( gtt_up j jpx - gtt_up jpx j + gtt_dn j jpx - gtt_dn jpx j ) *
      ( g00_up i ipx - g00_up ipx i + g00_dn i ipx - g00_dn ipx i )
    - g0t_up ipx jpx * gt0_up j i - g0t_dn ipx jpx * gt0_dn j i
    + g0t_up i jpx * gt0_up j ipx + g0t_dn i jpx * gt0_dn j ipx
    + g0t_up ipx j * gt0_up jpx i + g0t_dn ipx j * gt0_dn jpx i
    - g0t_up i j * gt0_up jpx ipx - g0t_dn i j * gt0_dn jpx ipx )

/-! ## Lemmas and theorems -/

/-- A loop that adds `f k` to an accumulator computes a sum over `range n`. -/
theorem forLoop_sum (n : Nat) (f : Nat → ℚ) (init : ℚ) :
    forLoop n (fun k acc => acc + f k) init = init + ∑ k in Finset.range n, f k := by
  induction n with
  | zero => simp [forLoop]
  | succ n ih => simp [forLoop, ih, Finset.sum_range_succ, add_assoc]

/-- A loop whose body never aborts is the corresponding total loop. -/
theorem forLoopM_eq_some {σ : Type} (n : Nat) (body : Nat → σ → Option σ) (g : Nat → σ → σ)
    (hb : ∀ k, k < n → ∀ s, body k s = some (g k s)) (init : σ) :
    forLoopM n body init = some (forLoop n g init) := by
  induction n with
  | zero => rfl
  | succ n ih =>
    have h1 := ih (fun k hk s => hb k (Nat.lt_succ_of_lt hk) s)
    simp [forLoopM, forLoop, h1, hb n (Nat.lt_succ_self n)]

/-- Adding to the running sum leaves the momentum `q` alone. -/
theorem add_matsubara_greens_q (dm : DynamicMeasure) (t : Nat) (x : ℚ) :
    (dm.add_matsubara_greens t x).q = dm.q := rfl

/-- Adding zero changes nothing. -/
theorem add_matsubara_greens_zero (dm : DynamicMeasure) (t : Nat) :
    dm.add_matsubara_greens t 0 = dm := by
  simp [DynamicMeasure.add_matsubara_greens, Vec.add_at]

/-- Two additions at the same index add up. -/
theorem add_matsubara_greens_add (dm : DynamicMeasure) (t : Nat) (x y : ℚ) :
    (dm.add_matsubara_greens t x).add_matsubara_greens t y = dm.add_matsubara_greens t (x + y) := by
  simp [DynamicMeasure.add_matsubara_greens, Vec.add_at, add_assoc]

/-- A loop of additions at index `t` is one addition of the sum. -/
theorem forLoop_add_matsubara_greens (n t : Nat) (F : Nat → DynamicMeasure → ℚ)
    (hF : ∀ k dm x, F k (dm.add_matsubara_greens t x) = F k dm) (dm : DynamicMeasure) :
    forLoop n (fun k dm => dm.add_matsubara_greens t (F k dm)) dm
      = dm.add_matsubara_greens t (∑ k in Finset.range n, F k dm) := by
  induction n with
  | zero => simp [forLoop, add_matsubara_greens_zero]
  | succ n ih =>
    simp only [forLoop, ih, hF, add_matsubara_greens_add, Finset.sum_range_succ]

/-- Closed form of `measure_matsubara_greens` for `t < lt`. -/
theorem measure_matsubara_greens_eq (lib : Libm) (t : Nat) (h : Hubbard) (dm : DynamicMeasure)
    (ht : t < h.lt) :
    measure_matsubara_greens lib t h dm
      = some (dm.add_matsubara_greens t (h.config_sign * matsubara_kernel lib dm.q h (gt0 h t))) := by
  have e4 : ∀ (xi yi dx : Nat) (dm : DynamicMeasure),
      forLoop h.ll (fun dy dm =>
        dm.add_matsubara_greens t
          (h.config_sign * lib.cos (-((dx : ℚ) * dm.q.1 + (dy : ℚ) * dm.q.2))
            * gt0 h t ((xi + dx) % h.ll + h.ll * ((yi + dy) % h.ll)) (xi + h.ll * yi)
            / (h.ls : ℚ))) dm
      = dm.add_matsubara_greens t
          (∑ dy in Finset.range h.ll, h.config_sign * matsubara_term lib dm.q h (gt0 h t) xi yi dx dy) := by
    intro xi yi dx dm
    rw [forLoop_add_matsubara_greens h.ll t _ (by intro _ _ _; rfl)]
    congr 1
    apply Finset.sum_congr rfl
    intro dy _
    simp only [matsubara_term]
    ring
  have e3 : ∀ (xi yi : Nat) (dm : DynamicMeasure),
      forLoop h.ll (fun dx dm => dm.add_matsubara_greens t
          (∑ dy in Finset.range h.ll, h.config_sign * matsubara_term lib dm.q h (gt0 h t) xi yi dx dy)) dm
      = dm.add_matsubara_greens t (∑ dx in Finset.range h.ll,
          ∑ dy in Finset.range h.ll, h.config_sign * matsubara_term lib dm.q h (gt0 h t) xi yi dx dy) :=
    fun xi yi dm => forLoop_add_matsubara_greens h.ll t _ (by intro _ _ _; rfl) dm
  have e2 : ∀ (xi : Nat) (dm : DynamicMeasure),
      forLoop h.ll (fun yi dm => dm.add_matsubara_greens t (∑ dx in Finset.range h.ll,
          ∑ dy in Finset.range h.ll, h.config_sign * matsubara_term lib dm.q h (gt0 h t) xi yi dx dy)) dm
      = dm.add_matsubara_greens t (∑ yi in Finset.range h.ll, ∑ dx in Finset.range h.ll,
          ∑ dy in Finset.range h.ll, h.config_sign * matsubara_term lib dm.q h (gt0 h t) xi yi dx dy) :=
    fun xi dm => forLoop_add_matsubara_greens h.ll t _ (by intro _ _ _; rfl) dm
  have e1 : ∀ (dm : DynamicMeasure),
      forLoop h.ll (fun xi dm => dm.add_matsubara_greens t (∑ yi in Finset.range h.ll,
          ∑ dx in Finset.range h.ll,
          ∑ dy in Finset.range h.ll, h.config_sign * matsubara_term lib dm.q h (gt0 h t) xi yi dx dy)) dm
      = dm.add_matsubara_greens t (∑ xi in Finset.range h.ll, ∑ yi in Finset.range h.ll,
          ∑ dx in Finset.range h.ll,
          ∑ dy in Finset.range h.ll, h.config_sign * matsubara_term lib dm.q h (gt0 h t) xi yi dx dy) :=
    fun dm => forLoop_add_matsubara_greens h.ll t _ (by intro _ _ _; rfl) dm
  simp only [measure_matsubara_greens, ht, if_true, e4, e3, e2, e1, matsubara_kernel,
    Finset.mul_sum]

/-- Closed form of `measure_density_of_states` for `t < lt`. -/
theorem measure_density_of_states_eq (t : Nat) (h : Hubbard) (dm : DynamicMeasure)
    (ht : t < h.lt) :
    measure_density_of_states t h dm
      = some (dm.add_density_of_states t (h.config_sign * density_kernel h (gt0 h t))) := by
  simp only [measure_density_of_states, ht, if_true, density_kernel, mul_div_assoc]

/-- The five nested loops of `measure_superfluid_stiffness` as a sum. -/
theorem tmp_rho_s_eq_sum (lib : Libm) (h : Hubbard) :
    tmp_rho_s lib h = ∑ l in Finset.range h.lt, ∑ xi in Finset.range h.ll,
      ∑ yi in Finset.range h.ll, ∑ dx in Finset.range h.ll, ∑ dy in Finset.range h.ll,
        rho_s_term lib h l xi yi dx dy := by
  simp only [tmp_rho_s, forLoop_sum, zero_add]

/-- Every summand of `tmp_rho_s` carries the factor `config_sign`. -/
theorem rho_s_term_sign (lib : Libm) (h : Hubbard) (l xi yi dx dy : Nat) :
    rho_s_term lib h l xi yi dx dy
      = h.config_sign * rho_s_term lib { h with config_sign := 1 } l xi yi dx dy := by
  simp only [rho_s_term]
  ring

/-- The accumulator `tmp_rho_s` carries the factor `config_sign`. -/
theorem tmp_rho_s_sign (lib : Libm) (h : Hubbard) :
    tmp_rho_s lib h = h.config_sign * tmp_rho_s lib { h with config_sign := 1 } := by
  rw [tmp_rho_s_eq_sum, tmp_rho_s_eq_sum]
  simp only [Finset.mul_sum]
  refine Finset.sum_congr rfl (fun l _ => Finset.sum_congr rfl (fun xi _ =>
    Finset.sum_congr rfl (fun yi _ => Finset.sum_congr rfl (fun dx _ =>
      Finset.sum_congr rfl (fun dy _ => ?_)))))
  exact rho_s_term_sign lib h l xi yi dx dy

/-- Closed form of `measure_superfluid_stiffness`. -/
theorem measure_superfluid_stiffness_eq (lib : Libm) (h : Hubbard) (dm : DynamicMeasure) :
    measure_superfluid_stiffness lib h dm
      = { dm with superfluid_stiffness := { dm.superfluid_stiffness with
            tmp_value := dm.superfluid_stiffness.tmp_value
              + h.config_sign * stiffness_kernel lib h } } := by
  have e : (1 / 4 : ℚ) * tmp_rho_s lib h / (h.ls : ℚ) / (h.ls : ℚ)
      = h.config_sign * stiffness_kernel lib h := by
    rw [tmp_rho_s_sign, stiffness_kernel]
    ring
  simp only [measure_superfluid_stiffness, e]

/-- Closed form of the loop over the time slices in `time_displaced_measure`. -/
theorem slice_loop_eq (lib : Libm) (h : Hubbard) (n : Nat) (dm : DynamicMeasure) :
    forLoop n (fun l dm =>
        (dm.add_matsubara_greens l (h.config_sign * matsubara_kernel lib dm.q h (gt0 h l))).add_density_of_states
          l (h.config_sign * density_kernel h (gt0 h l))) dm
      = { dm with
          matsubara_greens := { dm.matsubara_greens with
            tmp_value := fun t =>
              if t < n then
                dm.matsubara_greens.tmp_value t + h.config_sign * matsubara_kernel lib dm.q h (gt0 h t)
              else dm.matsubara_greens.tmp_value t }
          density_of_states := { dm.density_of_states with
            tmp_value := fun t =>
              if t < n then dm.density_of_states.tmp_value t + h.config_sign * density_kernel h (gt0 h t)
              else dm.density_of_states.tmp_value t } } := by
  induction n with
  | zero => simp [forLoop]
  | succ n ih =>
    simp only [forLoop]
    rw [ih]
    simp only [DynamicMeasure.add_matsubara_greens, DynamicMeasure.add_density_of_states,
      Vec.add_at]
    congr 2
    · funext t
      by_cases htn : t = n
      · subst htn; simp
      · have : t < n + 1 ↔ t < n := by omega
        simp [Function.update_noteq htn, this]
    · funext t
      by_cases htn : t = n
      · subst htn; simp
      · have : t < n + 1 ↔ t < n := by omega
        simp [Function.update_noteq htn, this]

/-- The routine `time_displaced_measure` never aborts and yields `measured`. -/
theorem time_displaced_measure_eq (lib : Libm) (h : Hubbard) (dm : DynamicMeasure) :
    time_displaced_measure lib h dm = some (measured lib h dm) := by
  unfold time_displaced_measure
  simp only
  rw [forLoopM_eq_some h.lt _
    (fun l dm => (dm.add_matsubara_greens l
      (h.config_sign * matsubara_kernel lib dm.q h (gt0 h l))).add_density_of_states
        l (h.config_sign * density_kernel h (gt0 h l)))]
  · rw [slice_loop_eq]
    simp only [Option.map_some', measure_superfluid_stiffness_eq, Observable.incr, measured]
  · intro l hl s
    rw [measure_matsubara_greens_eq lib l h s hl, Option.some_bind,
      measure_density_of_states_eq l h _ hl]

/-- Claim C1: for accumulators with positive counts and a non-zero sign sum,
`normalize_stats` leaves `sign.tmp` equal to the sign sum divided by the sign count (a
non-zero mean sign), and each of `matsubara_greens`, `density_of_states` (elementwise) and
`superfluid_stiffness` equal to its raw sum divided by its own count times that mean sign;
the division is exact: value times (count × mean sign) gives the raw sum back. -/
theorem normalize_stats_divides (h : Hubbard) (dm : DynamicMeasure)
    (hs : 0 < dm.sign.counts) (hm : 0 < dm.matsubara_greens.counts)
    (hd : 0 < dm.density_of_states.counts) (hr : 0 < dm.superfluid_stiffness.counts)
    (hsum : dm.sign.tmp_value ≠ 0) :
    (normalize_stats h dm).sign.tmp_value = dm.sign.tmp_value / (dm.sign.counts : ℚ) ∧
    (normalize_stats h dm).sign.tmp_value ≠ 0 ∧
    (∀ k, (normalize_stats h dm).matsubara_greens.tmp_value k
        = dm.matsubara_greens.tmp_value k
          / ((dm.matsubara_greens.counts : ℚ) * (dm.sign.tmp_value / (dm.sign.counts : ℚ)))) ∧
    (∀ k, (normalize_stats h dm).density_of_states.tmp_value k
        = dm.density_of_states.tmp_value k
          / ((dm.density_of_states.counts : ℚ) * (dm.sign.tmp_value / (dm.sign.counts : ℚ)))) ∧
    (normalize_stats h dm).superfluid_stiffness.tmp_value
        = dm.superfluid_stiffness.tmp_value
          / ((dm.superfluid_stiffness.counts : ℚ) * (dm.sign.tmp_value / (dm.sign.counts : ℚ))) ∧
    (∀ k, (normalize_stats h dm).matsubara_greens.tmp_value k
        * ((dm.matsubara_greens.counts : ℚ) * (normalize_stats h dm).sign.tmp_value)
        = dm.matsubara_greens.tmp_value k) ∧
    (∀ k, (normalize_stats h dm).density_of_states.tmp_value k
        * ((dm.density_of_states.counts : ℚ) * (normalize_stats h dm).sign.tmp_value)
        = dm.density_of_states.tmp_value k) ∧
    (normalize_stats h dm).superfluid_stiffness.tmp_value
        * ((dm.superfluid_stiffness.counts : ℚ) * (normalize_stats h dm).sign.tmp_value)
        = dm.superfluid_stiffness.tmp_value := by
  have hs0 : (dm.sign.counts : ℚ) ≠ 0 := Nat.cast_ne_zero.mpr (Nat.pos_iff_ne_zero.mp hs)
  have hm0 : (dm.matsubara_greens.counts : ℚ) ≠ 0 := Nat.cast_ne_zero.mpr (Nat.pos_iff_ne_zero.mp hm)
  have hd0 : (dm.density_of_states.counts : ℚ) ≠ 0 := Nat.cast_ne_zero.mpr (Nat.pos_iff_ne_zero.mp hd)
  have hr0 : (dm.superfluid_stiffness.counts : ℚ) ≠ 0 :=
    Nat.cast_ne_zero.mpr (Nat.pos_iff_ne_zero.mp hr)
  have hmean : dm.sign.tmp_value / (dm.sign.counts : ℚ) ≠ 0 := div_ne_zero hsum hs0
  refine ⟨rfl, hmean, fun _ => rfl, fun _ => rfl, rfl, fun k => ?_, fun k => ?_, ?_⟩
  · exact div_mul_cancel₀ _ (mul_ne_zero hm0 hmean)
  · exact div_mul_cancel₀ _ (mul_ne_zero hd0 hmean)
  · exact div_mul_cancel₀ _ (mul_ne_zero hr0 hmean)

/-- Claim C1 on the sample accumulators (sign sum 2 after 4 sweeps): the mean sign is `1/2`,
the Matsubara entry `2` becomes `1`, the stiffness `3` becomes `3/2`. -/
theorem normalize_stats_divides_witness :
    (normalize_stats sample_hubbard sample_measure).sign.tmp_value = 1 / 2 ∧
    (normalize_stats sample_hubbard sample_measure).matsubara_greens.tmp_value 1 = 1 ∧
    (normalize_stats sample_hubbard sample_measure).superfluid_stiffness.tmp_value = 3 / 2 := by
  have w := normalize_stats_divides sample_hubbard sample_measure
    (by decide) (by decide) (by decide) (by decide)
    (by norm_num [sample_measure, sample_observable])
  refine ⟨w.1.trans ?_, (w.2.2.1 1).trans ?_, w.2.2.2.2.1.trans ?_⟩ <;>
    norm_num [sample_measure, sample_observable]

/-- Claim C2: one call of `time_displaced_measure` on a model with configuration sign `c`
returns, adds exactly `c` to `sign.tmp`, and adds to `matsubara_greens(t)`,
`density_of_states(t)` for every `t < lt` and to `superfluid_stiffness` the product of `c`
with a quantity that is the same for every value of the sign; with the sign negated every
increment is negated, and with `c = 0` the running sums are unchanged. -/
theorem time_displaced_measure_sign_weighted (lib : Libm) (h : Hubbard) (dm : DynamicMeasure)
    (c : ℚ) :
    ∃ dm1 : DynamicMeasure,
      time_displaced_measure lib { h with config_sign := c } dm = some dm1 ∧
      dm1.sign.tmp_value = dm.sign.tmp_value + c ∧
      (∀ t, t < h.lt → dm1.matsubara_greens.tmp_value t
          = dm.matsubara_greens.tmp_value t + c * matsubara_kernel lib dm.q h (gt0 h t)) ∧
      (∀ t, t < h.lt → dm1.density_of_states.tmp_value t
          = dm.density_of_states.tmp_value t + c * density_kernel h (gt0 h t)) ∧
      dm1.superfluid_stiffness.tmp_value
          = dm.superfluid_stiffness.tmp_value + c * stiffness_kernel lib h ∧
      (∀ t, matsubara_kernel lib dm.q { h with config_sign := c }
            (gt0 { h with config_sign := c } t)
          = matsubara_kernel lib dm.q h (gt0 h t)) ∧
      (∀ t, density_kernel { h with config_sign := c } (gt0 { h with config_sign := c } t)
          = density_kernel h (gt0 h t)) ∧
      stiffness_kernel lib { h with config_sign := c } = stiffness_kernel lib h ∧
      (∃ dm2 : DynamicMeasure,
        time_displaced_measure lib { h with config_sign := -c } dm = some dm2 ∧
        dm2.sign.tmp_value - dm.sign.tmp_value = -(dm1.sign.tmp_value - dm.sign.tmp_value) ∧
        (∀ t, dm2.matsubara_greens.tmp_value t - dm.matsubara_greens.tmp_value t
            = -(dm1.matsubara_greens.tmp_value t - dm.matsubara_greens.tmp_value t)) ∧
        (∀ t, dm2.density_of_states.tmp_value t - dm.density_of_states.tmp_value t
            = -(dm1.density_of_states.tmp_value t - dm.density_of_states.tmp_value t)) ∧
        dm2.superfluid_stiffness.tmp_value - dm.superfluid_stiffness.tmp_value
            = -(dm1.superfluid_stiffness.tmp_value - dm.superfluid_stiffness.tmp_value)) ∧
      (c = 0 → dm1.sign.tmp_value = dm.sign.tmp_value ∧
        dm1.matsubara_greens.tmp_value = dm.matsubara_greens.tmp_value ∧
        dm1.density_of_states.tmp_value = dm.density_of_states.tmp_value ∧
        dm1.superfluid_stiffness.tmp_value = dm.superfluid_stiffness.tmp_value) := by
  refine ⟨measured lib { h with config_sign := c } dm, time_displaced_measure_eq _ _ _, rfl,
    ?_, ?_, rfl, fun _ => rfl, fun _ => rfl, rfl,
    ⟨measured lib { h with config_sign := -c } dm, time_displaced_measure_eq _ _ _,
      ?_, ?_, ?_, ?_⟩, ?_⟩
  · intro t ht
    have ht1 : t < ({ h with config_sign := c } : Hubbard).lt := ht
    simp only [measured, ht1, if_true]
    rfl
  · intro t ht
    have ht1 : t < ({ h with config_sign := c } : Hubbard).lt := ht
    simp only [measured, ht1, if_true]
    rfl
  · simp only [measured]; ring
  · intro t
    have e1 : matsubara_kernel lib dm.q { h with config_sign := -c }
          (gt0 { h with config_sign := -c } t)
        = matsubara_kernel lib dm.q { h with config_sign := c }
          (gt0 { h with config_sign := c } t) := rfl
    simp only [measured, e1]
    split_ifs <;> ring
  · intro t
    have e1 : density_kernel { h with config_sign := -c } (gt0 { h with config_sign := -c } t)
        = density_kernel { h with config_sign := c } (gt0 { h with config_sign := c } t) := rfl
    simp only [measured, e1]
    split_ifs <;> ring
  · have e1 : stiffness_kernel lib { h with config_sign := -c }
        = stiffness_kernel lib { h with config_sign := c } := rfl
    simp only [measured, e1]; ring
  · intro hc
    subst hc
    refine ⟨by simp [measured], ?_, ?_, by simp [measured]⟩
    · funext t; simp [measured]
    · funext t; simp [measured]

/-- Claim C3: the matrix `gt0` of `measure_matsubara_greens` and `measure_density_of_states`
is `vec_green_tt_up[lt-1]` for `t = 0` and `vec_green_t0_up[t-1]` for `0 < t < lt`, and the
two routines accumulate the values computed from exactly that matrix. -/
theorem gt0_time_zero_is_last_slice (lib : Libm) (h : Hubbard) (dm : DynamicMeasure) :
    gt0 h 0 = h.vec_green_tt_up (h.lt - 1) ∧
    (∀ t, 0 < t → t < h.lt → gt0 h t = h.vec_green_t0_up (t - 1)) ∧
    (0 < h.lt →
      measure_matsubara_greens lib 0 h dm
        = some (dm.add_matsubara_greens 0
            (h.config_sign * matsubara_kernel lib dm.q h (h.vec_green_tt_up (h.lt - 1)))) ∧
      measure_density_of_states 0 h dm
        = some (dm.add_density_of_states 0
            (h.config_sign * density_kernel h (h.vec_green_tt_up (h.lt - 1))))) ∧
    (∀ t, 0 < t → t < h.lt →
      measure_matsubara_greens lib t h dm
        = some (dm.add_matsubara_greens t
            (h.config_sign * matsubara_kernel lib dm.q h (h.vec_green_t0_up (t - 1)))) ∧
      measure_density_of_states t h dm
        = some (dm.add_density_of_states t
            (h.config_sign * density_kernel h (h.vec_green_t0_up (t - 1))))) := by
  have g0 : gt0 h 0 = h.vec_green_tt_up (h.lt - 1) := by
    funext a b
    simp only [gt0, if_true]
    ring
  have gt : ∀ t, 0 < t → gt0 h t = h.vec_green_t0_up (t - 1) := by
    intro t ht
    funext a b
    simp only [gt0, Nat.pos_iff_ne_zero.mp ht, if_false]
    ring
  refine ⟨g0, fun t ht _ => gt t ht, fun hlt => ?_, fun t ht htl => ?_⟩
  · rw [measure_matsubara_greens_eq lib 0 h dm hlt, measure_density_of_states_eq 0 h dm hlt, g0]
    exact ⟨rfl, rfl⟩
  · rw [measure_matsubara_greens_eq lib t h dm htl, measure_density_of_states_eq t h dm htl,
      gt t ht]
    exact ⟨rfl, rfl⟩

/-- What the code adds in `measure_superfluid_stiffness` is the base-site average of the
specification divided by `ls` once more: the sum over base sites is divided by `ls`
twice. -/
theorem measure_superfluid_stiffness_increment (lib : Libm) (h : Hubbard) (dm : DynamicMeasure) :
    (measure_superfluid_stiffness lib h dm).superfluid_stiffness.tmp_value
      = dm.superfluid_stiffness.tmp_value + spec_stiffness_increment lib h / (h.ls : ℚ) := by
  have e : tmp_rho_s lib h = ∑ xi in Finset.range h.ll, ∑ yi in Finset.range h.ll,
      ∑ l in Finset.range h.lt, ∑ dx in Finset.range h.ll, ∑ dy in Finset.range h.ll,
        rho_s_term lib h l xi yi dx dy := by
    rw [tmp_rho_s_eq_sum, Finset.sum_comm]
    refine Finset.sum_congr rfl (fun xi _ => ?_)
    rw [Finset.sum_comm]
  simp only [measure_superfluid_stiffness, spec_stiffness_increment, e]
  ring

/-- A reflexive and transitive relation kept by every iteration is kept by the loop, and
the loop does not abort. -/
theorem forLoopM_invariant {σ : Type} (R : σ → σ → Prop) (hrefl : ∀ s, R s s)
    (htrans : ∀ a b c, R a b → R b c → R a c) (n : Nat) (body : Nat → σ → Option σ)
    (hb : ∀ k, k < n → ∀ s, ∃ s1, body k s = some s1 ∧ R s s1) (init : σ) :
    ∃ s1, forLoopM n body init = some s1 ∧ R init s1 := by
  induction n with
  | zero => exact ⟨init, rfl, hrefl init⟩
  | succ n ih =>
    obtain ⟨s1, h1, r1⟩ := ih (fun k hk s => hb k (Nat.lt_succ_of_lt hk) s)
    obtain ⟨s2, h2, r2⟩ := hb n (Nat.lt_succ_self n) s1
    exact ⟨s2, by simp [forLoopM, h1, h2], htrans _ _ _ r1 r2⟩

/-- The routine `sweep_back_and_forth` never aborts; its calls, its effect on the
accumulators, and what it leaves alone. -/
theorem sweep_back_and_forth_spec {E : Type} (eng : Engine E) (lib : Libm)
    (bool_eqtime bool_dynamic : Bool) (st : DetQMC E) :
    ∃ st1, sweep_back_and_forth eng lib bool_eqtime bool_dynamic st = some st1 ∧
      st1.setup = st.setup ∧
      st1.trace = st.trace ++ sweep_events bool_eqtime bool_dynamic ∧
      (bool_dynamic = false → st1.dynamicMeasure = st.dynamicMeasure) ∧
      (bool_dynamic = true →
        time_displaced_measure lib (eng.sweep_0_to_beta_displaced st.nwrap st.hubb)
          st.dynamicMeasure = some st1.dynamicMeasure) ∧
      st1.dynamicMeasure.bins = st.dynamicMeasure.bins := by
  cases bool_dynamic <;> cases bool_eqtime <;>
    simp [sweep_back_and_forth, time_displaced_measure_eq, DetQMC.setup, sweep_events,
      DynamicMeasure.bins, measured]

/-- Equal bin data give equal slots. -/
theorem slot_of_bins (dm dm1 : DynamicMeasure) (hb : dm1.bins = dm.bins) (b : Nat) :
    dm1.slot b = dm.slot b := by
  simp only [DynamicMeasure.bins, Prod.mk.injEq] at hb
  simp only [DynamicMeasure.slot, hb.1, hb.2.1, hb.2.2.1, hb.2.2.2]

/-- The measuring sweeps of a bin leave the run parameters and all bin slots alone. -/
theorem measure_sweeps_spec {E : Type} (eng : Engine E) (lib : Libm) (st : DetQMC E) :
    ∃ s1, measure_sweeps eng lib st = some s1 ∧ s1.setup = st.setup ∧
      s1.dynamicMeasure.bins = st.dynamicMeasure.bins := by
  apply forLoopM_invariant
    (fun (a b : DetQMC E) => b.setup = a.setup ∧ b.dynamicMeasure.bins = a.dynamicMeasure.bins)
  · intro s; exact ⟨rfl, rfl⟩
  · intro a b c hab hbc; exact ⟨hbc.1.trans hab.1, hbc.2.trans hab.2⟩
  · intro k _ s
    obtain ⟨s1, h1, h2, _, _, _, h6⟩ :=
      sweep_back_and_forth_spec eng lib s.bool_measure_eqtime s.bool_measure_dynamic s
    exact ⟨s1, h1, h2, h6⟩

/-- The decorrelation sweeps leave the run parameters and the accumulators alone. -/
theorem between_bins_spec {E : Type} (eng : Engine E) (lib : Libm) (st : DetQMC E) :
    ∃ s1, between_bins eng lib st = some s1 ∧ s1.setup = st.setup ∧
      s1.dynamicMeasure = st.dynamicMeasure := by
  apply forLoopM_invariant
    (fun (a b : DetQMC E) => b.setup = a.setup ∧ b.dynamicMeasure = a.dynamicMeasure)
  · intro s; exact ⟨rfl, rfl⟩
  · intro a b c hab hbc; exact ⟨hbc.1.trans hab.1, hbc.2.trans hab.2⟩
  · intro k _ s
    obtain ⟨s1, h1, h2, _, h4, _, _⟩ := sweep_back_and_forth_spec eng lib false false s
    exact ⟨s1, h1, h2, h4 rfl⟩

/-- The bin close normalizes, then stores, then clears the dynamic accumulators. -/
theorem bin_close_spec {E : Type} (eng : Engine E) (bin : Nat) (st : DetQMC E)
    (hdyn : st.bool_measure_dynamic = true) :
    (bin_close eng bin st).setup = st.setup ∧
    (bin_close eng bin st).dynamicMeasure
      = clear_temporary st.hubb
          (write_stats_to_bins bin st.hubb (normalize_stats st.hubb st.dynamicMeasure)) := by
  cases he : st.bool_measure_eqtime <;> simp [bin_close, he, hdyn, DetQMC.setup]

/-- One iteration of the loop over bins. -/
theorem run_bin_spec {E : Type} (eng : Engine E) (lib : Libm) (bin : Nat) (st : DetQMC E)
    (hdyn : st.bool_measure_dynamic = true) :
    ∃ sm so, measure_sweeps eng lib st = some sm ∧ run_bin eng lib bin st = some so ∧
      sm.setup = st.setup ∧ so.setup = st.setup ∧
      sm.dynamicMeasure.bins = st.dynamicMeasure.bins ∧
      so.dynamicMeasure
        = clear_temporary sm.hubb
            (write_stats_to_bins bin sm.hubb (normalize_stats sm.hubb sm.dynamicMeasure)) := by
  obtain ⟨sm, hm, hsetup, hbins⟩ := measure_sweeps_spec eng lib st
  have hdyn1 : sm.bool_measure_dynamic = true := by
    have := congrArg (fun p => p.2.2.2.2.2.2.2) hsetup
    simpa [DetQMC.setup, hdyn] using this
  obtain ⟨hc1, hc2⟩ := bin_close_spec eng bin sm hdyn1
  obtain ⟨so, ho, hso, hdm⟩ := between_bins_spec eng lib (bin_close eng bin sm)
  refine ⟨sm, so, hm, ?_, hsetup, (hso.trans hc1).trans hsetup, hbins, hdm.trans hc2⟩
  simp [run_bin, hm, ho]

/-- After normalize, store into slot `b`, clear: slot `b` holds the normalized values, the
running sums are zero, every other slot is as before. -/
theorem closed_bin_slot (h : Hubbard) (b : Nat) (dm : DynamicMeasure) :
    (clear_temporary h (write_stats_to_bins b h (normalize_stats h dm))).slot b
        = (normalize_stats h dm).tmps ∧
    (clear_temporary h (write_stats_to_bins b h (normalize_stats h dm))).tmps = (0, 0, 0, 0) ∧
    ∀ b1, b1 ≠ b →
      (clear_temporary h (write_stats_to_bins b h (normalize_stats h dm))).slot b1 = dm.slot b1 := by
  refine ⟨?_, rfl, ?_⟩
  · simp [clear_temporary, write_stats_to_bins, Observable.clear_temporary,
      DynamicMeasure.slot, DynamicMeasure.tmps]
  · intro b1 hb1
    simp [clear_temporary, write_stats_to_bins, Observable.clear_temporary,
      DynamicMeasure.slot, normalize_stats, Function.update_noteq hb1]

/-- The loop over the first `n` bins: it does not abort, and for each bin `b < n` the slot
`b` written at the close of bin `b` is still there at the end. -/
theorem bins_loop_spec {E : Type} (eng : Engine E) (lib : Libm) (s0 : DetQMC E)
    (hdyn : s0.bool_measure_dynamic = true) (n : Nat) :
    ∃ sf, forLoopM n (fun bin st => run_bin eng lib bin st) s0 = some sf ∧
      sf.setup = s0.setup ∧
      (∀ b, n ≤ b → sf.dynamicMeasure.slot b = s0.dynamicMeasure.slot b) ∧
      ∀ b, b < n → ∃ s_in s_meas s_out,
        forLoopM b (fun bin st => run_bin eng lib bin st) s0 = some s_in ∧
        measure_sweeps eng lib s_in = some s_meas ∧
        forLoopM (b + 1) (fun bin st => run_bin eng lib bin st) s0 = some s_out ∧
        s_out.dynamicMeasure
          = clear_temporary s_meas.hubb
              (write_stats_to_bins b s_meas.hubb
                (normalize_stats s_meas.hubb s_meas.dynamicMeasure)) ∧
        sf.dynamicMeasure.slot b = s_out.dynamicMeasure.slot b := by
  induction n with
  | zero =>
    exact ⟨s0, rfl, rfl, fun _ _ => rfl, fun b hb => absurd hb (Nat.not_lt_zero b)⟩
  | succ n ih =>
    obtain ⟨sf, hsf, hsetup, hframe, hbins⟩ := ih
    have hdyn1 : sf.bool_measure_dynamic = true := by
      have := congrArg (fun p => p.2.2.2.2.2.2.2) hsetup
      simpa [DetQMC.setup, hdyn] using this
    obtain ⟨sm, so, hm, ho, _, hso, hmb, hdm⟩ := run_bin_spec eng lib n sf hdyn1
    have hstep : forLoopM (n + 1) (fun bin st => run_bin eng lib bin st) s0 = some so := by
      simp [forLoopM, hsf, ho]
    have hother : ∀ b, b ≠ n → so.dynamicMeasure.slot b = sf.dynamicMeasure.slot b := by
      intro b hb
      rw [hdm, (closed_bin_slot sm.hubb n sm.dynamicMeasure).2.2 b hb]
      exact slot_of_bins _ _ hmb b
    refine ⟨so, hstep, hso.trans hsetup, ?_, ?_⟩
    · intro b hb
      rw [hother b (by omega)]
      exact hframe b (by omega)
    · intro b hb
      by_cases hbn : b = n
      · subst hbn
        exact ⟨sf, sm, so, hsf, hm, hstep, hdm, rfl⟩
      · obtain ⟨s_in, s_meas, s_out, h1, h2, h3, h4, h5⟩ := hbins b (by omega)
        exact ⟨s_in, s_meas, s_out, h1, h2, h3, h4, (hother b hbn).trans h5⟩

/-- The warm-up never aborts and keeps the run parameters. -/
theorem warm_up_spec {E : Type} (eng : Engine E) (lib : Libm) (st : DetQMC E) :
    ∃ s0, warm_up eng lib st = some s0 ∧ s0.setup = st.setup := by
  have key : ∀ s : DetQMC E, ∃ s0,
      forLoopM (s.nwarm / 2) (fun _ st => sweep_back_and_forth eng lib false false st) s = some s0
        ∧ s0.setup = s.setup := by
    intro s
    apply forLoopM_invariant (fun (a b : DetQMC E) => b.setup = a.setup)
    · intro s; rfl
    · intro a b c hab hbc; exact hbc.trans hab
    · intro k _ s
      obtain ⟨s1, h1, h2, _⟩ := sweep_back_and_forth_spec eng lib false false s
      exact ⟨s1, h1, h2⟩
  have h2 : ∀ s2 : DetQMC E, s2.setup = st.setup → ∃ s0,
      (if s2.bool_warm_up then
        forLoopM (s2.nwarm / 2) (fun _ st => sweep_back_and_forth eng lib false false st) s2
       else some s2) = some s0 ∧ s0.setup = st.setup := by
    intro s2 hs2
    split_ifs with hw
    · obtain ⟨s0, h0, h1⟩ := key s2
      exact ⟨s0, h0, h1.trans hs2⟩
    · exact ⟨s2, rfl, hs2⟩
  unfold warm_up
  refine h2 _ ?_
  cases he : st.bool_measure_eqtime <;> cases hd : st.bool_measure_dynamic <;>
    simp [DetQMC.setup, he, hd]

/-- Claim C5: with dynamic measurement on, `run_QMC` returns, and for every bin `b < nbin`,
with `s_in` the state at the start of bin `b`, `s_meas` the state after its measuring sweeps
and `s_out` the state at the end of the bin (the start of the next one): the accumulators
of `s_out` are those of `s_meas` normalized, then stored into slot `b`, then cleared; slot
`b` holds raw sum / (count × mean sign) (the sign: raw sum / count); every running sum is
zero; and slot `b` is still the same at the end of the run. -/
theorem run_QMC_bin_close {E : Type} (eng : Engine E) (lib : Libm) (st : DetQMC E)
    (hdyn : st.bool_measure_dynamic = true) :
    ∃ s0 final, warm_up eng lib st = some s0 ∧ run_QMC eng lib st = some final ∧
      ∀ b, b < st.nbin → ∃ s_in s_meas s_out,
        forLoopM b (fun bin st => run_bin eng lib bin st) s0 = some s_in ∧
        measure_sweeps eng lib s_in = some s_meas ∧
        forLoopM (b + 1) (fun bin st => run_bin eng lib bin st) s0 = some s_out ∧
        s_out.dynamicMeasure
          = clear_temporary s_meas.hubb
              (write_stats_to_bins b s_meas.hubb
                (normalize_stats s_meas.hubb s_meas.dynamicMeasure)) ∧
        s_out.dynamicMeasure.sign.bin_data b
          = s_meas.dynamicMeasure.sign.tmp_value / (s_meas.dynamicMeasure.sign.counts : ℚ) ∧
        (∀ k, s_out.dynamicMeasure.matsubara_greens.bin_data b k
          = s_meas.dynamicMeasure.matsubara_greens.tmp_value k
            / ((s_meas.dynamicMeasure.matsubara_greens.counts : ℚ)
                * (s_meas.dynamicMeasure.sign.tmp_value
                    / (s_meas.dynamicMeasure.sign.counts : ℚ)))) ∧
        (∀ k, s_out.dynamicMeasure.density_of_states.bin_data b k
          = s_meas.dynamicMeasure.density_of_states.tmp_value k
            / ((s_meas.dynamicMeasure.density_of_states.counts : ℚ)
                * (s_meas.dynamicMeasure.sign.tmp_value
                    / (s_meas.dynamicMeasure.sign.counts : ℚ)))) ∧
        s_out.dynamicMeasure.superfluid_stiffness.bin_data b
          = s_meas.dynamicMeasure.superfluid_stiffness.tmp_value
            / ((s_meas.dynamicMeasure.superfluid_stiffness.counts : ℚ)
                * (s_meas.dynamicMeasure.sign.tmp_value
                    / (s_meas.dynamicMeasure.sign.counts : ℚ))) ∧
        s_out.dynamicMeasure.sign.tmp_value = 0 ∧
        (∀ k, s_out.dynamicMeasure.matsubara_greens.tmp_value k = 0) ∧
        (∀ k, s_out.dynamicMeasure.density_of_states.tmp_value k = 0) ∧
        s_out.dynamicMeasure.superfluid_stiffness.tmp_value = 0 ∧
        final.dynamicMeasure.slot b = s_out.dynamicMeasure.slot b := by
  obtain ⟨s0, hw, hsetup⟩ := warm_up_spec eng lib st
  have hdyn0 : s0.bool_measure_dynamic = true := by
    have := congrArg (fun p => p.2.2.2.2.2.2.2) hsetup
    simpa [DetQMC.setup, hdyn] using this
  have hnbin : s0.nbin = st.nbin := by
    have := congrArg (fun p => p.2.2.1) hsetup
    simpa [DetQMC.setup] using this
  obtain ⟨sf, hsf, _, _, hbins⟩ := bins_loop_spec eng lib s0 hdyn0 st.nbin
  refine ⟨s0, sf, hw, ?_, ?_⟩
  · simp [run_QMC, hw, hdyn0, hnbin, hsf]
  · intro b hb
    obtain ⟨s_in, s_meas, s_out, h1, h2, h3, h4, h5⟩ := hbins b hb
    refine ⟨s_in, s_meas, s_out, h1, h2, h3, h4, ?_, ?_, ?_, ?_, ?_, ?_, ?_, ?_, h5⟩
    all_goals rw [h4]
    all_goals
      simp [clear_temporary, write_stats_to_bins, normalize_stats, Observable.clear_temporary]

/-- Claim C5 on the sample driver: dynamic measurement is on and the run returns. -/
theorem run_QMC_bin_close_witness :
    sample_driver.bool_measure_dynamic = true ∧
    ∃ final, run_QMC sample_engine sample_libm sample_driver = some final :=
  ⟨rfl, (run_QMC_bin_close sample_engine sample_libm sample_driver rfl).elim
    (fun _ hs => hs.elim (fun final hf => ⟨final, hf.2.1⟩))⟩

/-- Claim C6: `sweep_back_and_forth` with `bool_dynamic` true issues, in this order, the
forward displaced sweep, the time-displaced measurement, (the equal-time measurement,) the
backward sweep (and the equal-time measurement), which is the list `sweep_events`: the
time-displaced measurement happens exactly once, on the model as the forward sweep left
it, and not after the backward sweep. With `bool_dynamic` false it issues no
time-displaced measurement and leaves the dynamic accumulators unchanged. -/
theorem sweep_back_and_forth_measures_once {E : Type} (eng : Engine E) (lib : Libm)
    (bool_eqtime : Bool) (st : DetQMC E) :
    (∃ st1, sweep_back_and_forth eng lib bool_eqtime true st = some st1 ∧
      st1.trace = st.trace
        ++ ([Event.sweep_0_to_beta_displaced, Event.measure_time_displaced]
          ++ (if bool_eqtime then [Event.measure_equal_time] else [])
          ++ [Event.sweep_beta_to_0]
          ++ (if bool_eqtime then [Event.measure_equal_time] else [])) ∧
      time_displaced_measure lib (eng.sweep_0_to_beta_displaced st.nwrap st.hubb)
        st.dynamicMeasure = some st1.dynamicMeasure) ∧
    (sweep_events bool_eqtime true).count Event.measure_time_displaced = 1 ∧
    (∃ st2, sweep_back_and_forth eng lib bool_eqtime false st = some st2 ∧
      st2.trace = st.trace
        ++ ([Event.sweep_0_to_beta]
          ++ (if bool_eqtime then [Event.measure_equal_time] else [])
          ++ [Event.sweep_beta_to_0]
          ++ (if bool_eqtime then [Event.measure_equal_time] else [])) ∧
      st2.dynamicMeasure = st.dynamicMeasure) ∧
    (sweep_events bool_eqtime false).count Event.measure_time_displaced = 0 := by
  refine ⟨?_, ?_, ?_, ?_⟩
  · obtain ⟨st1, h1, _, h3, _, h5, _⟩ := sweep_back_and_forth_spec eng lib bool_eqtime true st
    exact ⟨st1, h1, h3, h5 rfl⟩
  · cases bool_eqtime <;> decide
  · obtain ⟨st2, h1, _, h3, h4, _, _⟩ := sweep_back_and_forth_spec eng lib bool_eqtime false st
    exact ⟨st2, h1, h3, h4 rfl⟩
  · cases bool_eqtime <;> decide

/-- A leading blank yields no token. -/
theorem split_tokens_space (xs : List Char) : split_tokens (' ' :: xs) = split_tokens xs := by
  simp [split_tokens, List.splitOn, List.splitOnP_cons]

/-- Leading blanks yield no token. -/
theorem split_tokens_spaces (k : Nat) (xs : List Char) :
    split_tokens (List.replicate k ' ' ++ xs) = split_tokens xs := by
  induction k with
  | zero => rfl
  | succ k ih => rw [List.replicate_succ, List.cons_append, split_tokens_space, ih]

/-- A word followed by a blank is the first token. -/
theorem split_tokens_word_space (tok xs : List Char) (hne : tok ≠ [])
    (hsp : ∀ c ∈ tok, c ≠ ' ') : split_tokens (tok ++ ' ' :: xs) = tok :: split_tokens xs := by
  have h1 : (tok ++ ' ' :: xs).splitOn ' ' = tok :: xs.splitOn ' ' := by
    simp only [List.splitOn]
    exact List.splitOnP_first _ _ (fun c hc => by simpa using hsp c hc) ' ' (by simp) xs
  simp [split_tokens, h1, hne]

/-- A word alone is the only token. -/
theorem split_tokens_word (tok : List Char) (hne : tok ≠ [])
    (hsp : ∀ c ∈ tok, c ≠ ' ') : split_tokens tok = [tok] := by
  have h1 : tok.splitOn ' ' = [tok] := by
    simp only [List.splitOn]
    exact List.splitOnP_eq_single _ _ (fun c hc => by simpa using hsp c hc)
  simp [split_tokens, h1, hne]

/-- A text shorter than the field width is preceded by at least one blank. -/
theorem setw_eq_space_cons (w : Nat) (tok : List Char) (hlen : tok.length < w) :
    setw w tok = ' ' :: (List.replicate (w - tok.length - 1) ' ' ++ tok) := by
  have : w - tok.length = (w - tok.length - 1) + 1 := by omega
  rw [setw, this, List.replicate_succ]
  simp

/-- Three right-aligned columns split into their three texts. -/
theorem split_tokens_row (a b c : List Char) (w : Nat)
    (ha : a ≠ []) (hb : b ≠ []) (hc : c ≠ [])
    (sa : ∀ x ∈ a, x ≠ ' ') (sb : ∀ x ∈ b, x ≠ ' ') (sc : ∀ x ∈ c, x ≠ ' ')
    (lb : b.length < w) (lc : c.length < w) :
    split_tokens (setw w a ++ setw w b ++ setw w c) = [a, b, c] := by
  rw [setw_eq_space_cons w b lb, setw_eq_space_cons w c lc, setw]
  simp only [List.append_assoc, List.cons_append]
  rw [split_tokens_spaces, split_tokens_word_space a _ ha sa, split_tokens_spaces,
    split_tokens_word_space b _ hb sb, split_tokens_spaces, split_tokens_word c hc sc]

/-- The character of a decimal digit. -/
theorem digitChar_spec (d : Nat) (hd : d < 10) :
    (Nat.digitChar d).isDigit = true ∧ (Nat.digitChar d).toNat - '0'.toNat = d ∧
      Nat.digitChar d ≠ ' ' := by
  interval_cases d <;> decide

/-- The value of a digit string with one more digit. -/
theorem digits_value_append (xs : List Char) (c : Char) :
    digits_value (xs ++ [c]) = 10 * digits_value xs + (c.toNat - '0'.toNat) := by
  simp [digits_value, List.foldl_append]

/-- Reading back most-significant-first digit characters. -/
theorem digits_value_digitChar (ds : List Nat) (hds : ∀ d ∈ ds, d < 10) :
    digits_value (ds.reverse.map Nat.digitChar) = Nat.ofDigits 10 ds := by
  induction ds with
  | nil => rfl
  | cons d tl ih =>
    rw [List.reverse_cons, List.map_append, List.map_singleton, digits_value_append,
      ih (fun x hx => hds x (List.mem_cons_of_mem d hx)),
      (digitChar_spec d (hds d (List.mem_cons_self d tl))).2.1, Nat.ofDigits_cons]
    ring

/-- Reading back the decimal text of a natural number. -/
theorem digits_value_put_nat (n : Nat) : digits_value (put_nat n) = n := by
  unfold put_nat
  split_ifs with h0
  · subst h0; rfl
  · rw [digits_value_digitChar _ (fun d hd => Nat.digits_lt_base (by norm_num) hd),
      Nat.ofDigits_digits]

/-- The decimal text of a number is not empty. -/
theorem put_nat_ne_nil (n : Nat) : put_nat n ≠ [] := by
  unfold put_nat
  split_ifs with h0
  · simp
  · simpa using Nat.digits_ne_nil_iff_ne_zero.mpr h0

/-- The decimal text of a number consists of digits. -/
theorem put_nat_chars (n : Nat) : ∀ c ∈ put_nat n, c.isDigit = true ∧ c ≠ ' ' := by
  unfold put_nat
  split_ifs with h0
  · intro c hc
    simp only [List.mem_singleton] at hc
    subst hc
    decide
  · intro c hc
    simp only [List.mem_map, List.mem_reverse] at hc
    obtain ⟨d, hd, rfl⟩ := hc
    have := digitChar_spec d (Nat.digits_lt_base (by norm_num) hd)
    exact ⟨this.1, this.2.2⟩

/-- The decimal text of an `int` fits the column width. -/
theorem put_nat_length (n : Nat) (hn : n < 2 ^ 31) : (put_nat n).length < 15 := by
  unfold put_nat
  split_ifs with h0
  · simp
  · simp only [List.length_map, List.length_reverse]
    have h1 := Nat.base_pow_length_digits_le 10 n (by norm_num) h0
    have h2 : 10 ^ (Nat.digits 10 n).length < 10 ^ 15 := by
      calc 10 ^ (Nat.digits 10 n).length ≤ 10 * n := h1
        _ < 10 ^ 15 := by norm_num at hn ⊢; omega
    exact (Nat.pow_lt_pow_iff_right (by norm_num : 1 < 10)).mp h2

/-- The text of a non-negative `int` is cast back to it. -/
theorem lexical_cast_int_put_int (n : Nat) (hn : n < 2 ^ 31) :
    lexical_cast_int (put_int (n : Int)) = some (n : Int) := by
  have hput : put_int (n : Int) = put_nat n := by
    simp [put_int]
  rw [hput]
  have hne := put_nat_ne_nil n
  have hch := put_nat_chars n
  have hval := digits_value_put_nat n
  cases hp : put_nat n with
  | nil => exact absurd hp hne
  | cons c cs =>
    rw [hp] at hch hval
    have hc := (hch c (List.mem_cons_self c cs)).1
    have hminus : c ≠ '-' := by rintro rfl; exact absurd hc (by decide)
    have hplus : c ≠ '+' := by rintro rfl; exact absurd hc (by decide)
    have hall : (c :: cs).all Char.isDigit = true := by
      rw [List.all_eq_true]
      exact fun x hx => (hch x hx).1
    have hn1 : (n : Int) < 2 ^ 31 := by exact_mod_cast hn
    have hn0 : -(2 : Int) ^ 31 ≤ (n : Int) := by
      have : (0 : Int) ≤ (n : Int) := Int.natCast_nonneg n
      omega
    unfold lexical_cast_int
    split
    · rename_i h; cases h; exact absurd rfl hminus
    · rename_i h; cases h; exact absurd rfl hplus
    · simp only [hall, hval, List.isEmpty_cons]
      simp only [Bool.not_true, Bool.or_false, Bool.false_eq_true, if_false]
      exact if_pos ⟨hn0, hn1⟩

/-- An entry of the field after the assignment `s(i, l) = v`. -/
theorem update_entry (s : Mat) (i l a b : Nat) (v : ℚ) :
    (Function.update s i (Function.update (s i) l v)) a b
      = if a = i ∧ b = l then v else s a b := by
  by_cases ha : a = i
  · subst ha
    by_cases hb : b = l
    · subst hb; simp
    · simp [Function.update_noteq hb, hb]
  · simp [Function.update_noteq ha, ha]

/-- A row inside the field matrix is stored. -/
theorem store_row_ok (r : Int × Int × ℚ) (st : ReadState) (hr : in_range st.hubb r) :
    store_row r st = Except.ok
      { hubb := { st.hubb with
          s := Function.update st.hubb.s r.2.1.toNat
            (Function.update (st.hubb.s r.2.1.toNat) r.1.toNat r.2.2) }
        lt := max st.lt r.1
        ls := max st.ls r.2.1 } := by
  unfold in_range at hr
  simp only [store_row, hr, and_self, if_true]

/-- A row outside the field matrix trips the index assertion. -/
theorem store_row_error (r : Int × Int × ℚ) (st : ReadState) (hr : ¬ in_range st.hubb r) :
    store_row r st = Except.error ReadError.index_out_of_range := by
  unfold in_range at hr
  simp only [store_row, hr, if_false]

/-- A file with a row outside the field matrix is rejected. -/
theorem store_rows_error (rows : List (Int × Int × ℚ)) (st : ReadState)
    (hr : ∃ r ∈ rows, ¬ in_range st.hubb r) :
    store_rows rows st = Except.error ReadError.index_out_of_range := by
  induction rows generalizing st with
  | nil => obtain ⟨r, hmem, _⟩ := hr; cases hmem
  | cons r rest ih =>
    by_cases hin : in_range st.hubb r
    · obtain ⟨r1, hmem, hbad⟩ := hr
      rcases List.mem_cons.mp hmem with h1 | h1
      · subst h1; exact absurd hin hbad
      · simp only [store_rows, store_row_ok r st hin]
        exact ih _ ⟨r1, h1, hbad⟩
    · simp only [store_rows, store_row_error r st hin]

/-- Rows inside the field matrix are all stored: the locals `lt`, `ls` end as the maximum
of their start value and the row indices, entries without a row are unchanged, entries
with a row hold the value of such a row. -/
theorem store_rows_ok (rows : List (Int × Int × ℚ)) (st : ReadState)
    (hr : ∀ r ∈ rows, in_range st.hubb r) :
    ∃ st1, store_rows rows st = Except.ok st1 ∧
      st1.hubb.ls = st.hubb.ls ∧ st1.hubb.lt = st.hubb.lt ∧
      st.lt ≤ st1.lt ∧ (∀ r ∈ rows, r.1 ≤ st1.lt) ∧
      (st1.lt = st.lt ∨ st1.lt ∈ rows.map (fun r => r.1)) ∧
      st.ls ≤ st1.ls ∧ (∀ r ∈ rows, r.2.1 ≤ st1.ls) ∧
      (st1.ls = st.ls ∨ st1.ls ∈ rows.map (fun r => r.2.1)) ∧
      (∀ i l : Nat, (∀ r ∈ rows, ¬ (r.1 = (l : Int) ∧ r.2.1 = (i : Int))) →
        st1.hubb.s i l = st.hubb.s i l) ∧
      (∀ i l : Nat, (∃ r ∈ rows, r.1 = (l : Int) ∧ r.2.1 = (i : Int)) →
        ∃ r ∈ rows, r.1 = (l : Int) ∧ r.2.1 = (i : Int) ∧ st1.hubb.s i l = r.2.2) := by
  induction rows generalizing st with
  | nil =>
    refine ⟨st, rfl, rfl, rfl, le_refl _, ?_, Or.inl rfl, le_refl _, ?_, Or.inl rfl, ?_, ?_⟩
    · intro r hr; cases hr
    · intro r hr; cases hr
    · intro _ _ _; rfl
    · rintro _ _ ⟨r, hr, _⟩; cases hr
  | cons r rest ih =>
    have hin := hr r (List.mem_cons_self r rest)
    obtain ⟨st1, h1, hls, hlt, a1, a2, a3, b1, b2, b3, c1, c2⟩ :=
      ih { hubb := { st.hubb with
              s := Function.update st.hubb.s r.2.1.toNat
                (Function.update (st.hubb.s r.2.1.toNat) r.1.toNat r.2.2) }
           lt := max st.lt r.1
           ls := max st.ls r.2.1 }
        (fun x hx => hr x (List.mem_cons_of_mem r hx))
    simp only at hls hlt a1 a3 b1 b3 c1 c2
    have hfirst : ∀ i l : Nat, (r.1 = (l : Int) ∧ r.2.1 = (i : Int)) →
        (Function.update st.hubb.s r.2.1.toNat
          (Function.update (st.hubb.s r.2.1.toNat) r.1.toNat r.2.2)) i l = r.2.2 := by
      intro i l h
      rw [update_entry, if_pos]
      constructor
      · rw [h.2]; simp
      · rw [h.1]; simp
    have hother : ∀ i l : Nat, ¬ (r.1 = (l : Int) ∧ r.2.1 = (i : Int)) →
        (Function.update st.hubb.s r.2.1.toNat
          (Function.update (st.hubb.s r.2.1.toNat) r.1.toNat r.2.2)) i l = st.hubb.s i l := by
      intro i l h
      rw [update_entry, if_neg]
      rintro ⟨e1, e2⟩
      apply h
      unfold in_range at hin
      constructor
      · rw [e2]; exact (Int.toNat_of_nonneg hin.2.2.1).symm
      · rw [e1]; exact (Int.toNat_of_nonneg hin.1).symm
    refine ⟨st1, ?_, hls, hlt, le_trans (le_max_left _ _) a1, ?_, ?_,
      le_trans (le_max_left _ _) b1, ?_, ?_, ?_, ?_⟩
    · simp only [store_rows, store_row_ok r st hin]
      exact h1
    · intro x hx
      rcases List.mem_cons.mp hx with h | h
      · subst h; exact le_trans (le_max_right _ _) a1
      · exact a2 x h
    · rcases a3 with h | h
      · rcases max_choice st.lt r.1 with hm | hm
        · left; rw [h, hm]
        · right; rw [h, hm]; simp
      · right; simp only [List.map_cons, List.mem_cons]; exact Or.inr h
    · intro x hx
      rcases List.mem_cons.mp hx with h | h
      · subst h; exact le_trans (le_max_right _ _) b1
      · exact b2 x h
    · rcases b3 with h | h
      · rcases max_choice st.ls r.2.1 with hm | hm
        · left; rw [h, hm]
        · right; rw [h, hm]; simp
      · right; simp only [List.map_cons, List.mem_cons]; exact Or.inr h
    · intro i l hno
      rw [c1 i l (fun x hx => hno x (List.mem_cons_of_mem r hx))]
      exact hother i l (hno r (List.mem_cons_self r rest))
    · intro i l hex
      by_cases hrest : ∃ x ∈ rest, x.1 = (l : Int) ∧ x.2.1 = (i : Int)
      · obtain ⟨x, hx, e1, e2, e3⟩ := c2 i l hrest
        exact ⟨x, List.mem_cons_of_mem r hx, e1, e2, e3⟩
      · have hr0 : r.1 = (l : Int) ∧ r.2.1 = (i : Int) := by
          obtain ⟨x, hx, e⟩ := hex
          rcases List.mem_cons.mp hx with h | h
          · subst h; exact e
          · exact absurd ⟨x, h, e⟩ hrest
        refine ⟨r, List.mem_cons_self r rest, hr0.1, hr0.2, ?_⟩
        rw [c1 i l (fun x hx hxe => hrest ⟨x, hx, hxe⟩)]
        exact hfirst i l hr0

/-- The reading loop on lines that parse is the loop on their rows. -/
theorem read_rows_parsed (io : NumFormat) (lines : List (List Char))
    (rows : List (Int × Int × ℚ)) (hrows : lines.map (parse_row io) = rows.map some)
    (st : ReadState) : read_rows io lines st = store_rows rows st := by
  induction lines generalizing rows st with
  | nil =>
    cases rows with
    | nil => rfl
    | cons r rest => simp at hrows
  | cons line rest ih =>
    cases rows with
    | nil => simp at hrows
    | cons r rs =>
      simp only [List.map_cons, List.cons.injEq] at hrows
      simp only [read_rows, hrows.1, store_rows]
      cases store_row r st with
      | ok st1 => exact ih rs hrows.2 st1
      | error e => rfl

/-- A loop that appends `G k` builds the concatenation over `range n`. -/
theorem forLoop_append_eq {α : Type} (n : Nat) (G : Nat → List α) (init : List α) :
    forLoop n (fun k out => out ++ G k) init = init ++ ((List.range n).map G).flatten := by
  induction n with
  | zero => simp [forLoop]
  | succ n ih => simp [forLoop, ih, List.range_succ]

/-- The lines written: one per pair, the time index outermost. -/
theorem file_output_aux_field_configs_eq (io : NumFormat) (h : Hubbard) :
    file_output_aux_field_configs io h
      = ((List.range h.lt).map (fun l =>
          (List.range h.ls).map (fun i => aux_field_row io h l i))).flatten := by
  have inner : ∀ (l : Nat) (out : List (List Char)),
      forLoop h.ls (fun i out => out ++ [aux_field_row io h l i]) out
        = out ++ (List.range h.ls).map (fun i => aux_field_row io h l i) := by
    intro l out
    rw [forLoop_append_eq h.ls (fun i => [aux_field_row io h l i]) out]
    congr 1
    induction (List.range h.ls) with
    | nil => rfl
    | cons a t ih => simp [ih]
  simp only [file_output_aux_field_configs, inner]
  rw [forLoop_append_eq]
  simp

/-- A written line is parsed back to its three numbers. -/
theorem parse_row_aux_field_row (io : NumFormat) (h : Hubbard) (l i : Nat)
    (hl : l < 2 ^ 31) (hi : i < 2 ^ 31) (hv : io.survives (h.s i l)) :
    parse_row io (aux_field_row io h l i) = some ((l : Int), (i : Int), h.s i l) := by
  have pl : put_int (l : Int) = put_nat l := by simp [put_int]
  have pi : put_int (i : Int) = put_nat i := by simp [put_int]
  have htok : split_tokens (aux_field_row io h l i)
      = [put_int (l : Int), put_int (i : Int), io.put_double (h.s i l)] := by
    unfold aux_field_row
    apply split_tokens_row
    · rw [pl]; exact put_nat_ne_nil l
    · rw [pi]; exact put_nat_ne_nil i
    · exact hv.2.1
    · rw [pl]; exact fun c hc => (put_nat_chars l c hc).2
    · rw [pi]; exact fun c hc => (put_nat_chars i c hc).2
    · exact hv.2.2.1
    · rw [pi]; exact put_nat_length i hi
    · exact hv.2.2.2
  simp only [parse_row, htok, lexical_cast_int_put_int l hl, lexical_cast_int_put_int i hi,
    hv.1, Option.some_bind, Option.map_some']

/-- The rows written are exactly the triples `(l, i, s(i,l))` with `l < lt`, `i < ls`. -/
theorem mem_written_rows (h : Hubbard) (r : Int × Int × ℚ) :
    r ∈ written_rows h ↔ ∃ l i : Nat, l < h.lt ∧ i < h.ls ∧ r = ((l : Int), (i : Int), h.s i l) := by
  simp only [written_rows, List.mem_flatten, List.mem_map, List.mem_range]
  constructor
  · rintro ⟨rowl, ⟨l, hl, rfl⟩, hr⟩
    simp only [List.mem_map, List.mem_range] at hr
    obtain ⟨i, hi, rfl⟩ := hr
    exact ⟨l, i, hl, hi, rfl⟩
  · rintro ⟨l, i, hl, hi, rfl⟩
    refine ⟨_, ⟨l, hl, rfl⟩, ?_⟩
    simp only [List.mem_map, List.mem_range]
    exact ⟨i, hi, rfl⟩

/-- The written file parses to the written rows. -/
theorem parse_written (io : NumFormat) (h : Hubbard) (bls : h.ls < 2 ^ 31) (blt : h.lt < 2 ^ 31)
    (hs : ∀ i l, i < h.ls → l < h.lt → io.survives (h.s i l)) :
    (file_output_aux_field_configs io h).map (parse_row io) = (written_rows h).map some := by
  rw [file_output_aux_field_configs_eq, written_rows, List.map_flatten, List.map_flatten,
    List.map_map, List.map_map]
  congr 1
  apply List.map_congr_left
  intro l hl
  simp only [Function.comp, List.map_map]
  apply List.map_congr_left
  intro i hi
  have hl1 := List.mem_range.mp hl
  have hi1 := List.mem_range.mp hi
  simp only [Function.comp]
  exact parse_row_aux_field_row io h l i (by omega) (by omega) (hs i l hi1 hl1)

/-- The reader on a file that parses to `rows`: an index outside the field matrix is
rejected; otherwise the outcome is that of the two size assertions. -/
theorem read_aux_field_configs_parsed (io : NumFormat) (hubb : Hubbard)
    (lines : List (List Char)) (rows : List (Int × Int × ℚ))
    (hrows : lines.map (parse_row io) = rows.map some) :
    ((∃ r ∈ rows, ¬ in_range hubb r) →
      read_aux_field_configs io (some lines) hubb
        = Except.error ReadError.index_out_of_range) ∧
    ((∀ r ∈ rows, in_range hubb r) →
      ∃ st1, store_rows rows { hubb := hubb, lt := 0, ls := 0 } = Except.ok st1 ∧
        read_aux_field_configs io (some lines) hubb
          = (if st1.lt + 1 = (hubb.lt : Int) ∧ st1.ls + 1 = (hubb.ls : Int) then
              Except.ok st1.hubb
             else Except.error ReadError.size_mismatch)) := by
  constructor
  · intro hbad
    simp only [read_aux_field_configs, read_rows_parsed io lines rows hrows,
      store_rows_error rows { hubb := hubb, lt := 0, ls := 0 } hbad]
  · intro hall
    obtain ⟨st1, h1, hls, hlt, _⟩ := store_rows_ok rows { hubb := hubb, lt := 0, ls := 0 } hall
    refine ⟨st1, h1, ?_⟩
    simp only at hls hlt
    simp only [read_aux_field_configs, read_rows_parsed io lines rows hrows, h1, hls, hlt]

/-- Claim C7 as amended: for a file whose lines parse to `rows`, with `mL` the largest time
index and `mI` the largest site index over the rows: if `mL + 1 ≠ lt` or `mI + 1 ≠ ls` the
reader fails; if all indices are non-negative it succeeds exactly when `mL + 1 = lt` and
`mI + 1 = ls`; when every row lies inside the field matrix a mismatch is reported by the
size assertion; and when some row lies outside the field matrix the reader fails at the
index assertion of the element access, before the size assertions are reached. -/
theorem read_aux_field_configs_size_check (io : NumFormat) (hubb : Hubbard)
    (lines : List (List Char)) (rows : List (Int × Int × ℚ))
    (hrows : lines.map (parse_row io) = rows.map some) (mL mI : Int)
    (hL : is_largest (rows.map (fun r => r.1)) mL)
    (hI : is_largest (rows.map (fun r => r.2.1)) mI) :
    ((mL + 1 ≠ (hubb.lt : Int) ∨ mI + 1 ≠ (hubb.ls : Int)) →
      ∃ e, read_aux_field_configs io (some lines) hubb = Except.error e) ∧
    ((∀ r ∈ rows, 0 ≤ r.1 ∧ 0 ≤ r.2.1) →
      ((∃ h1, read_aux_field_configs io (some lines) hubb = Except.ok h1)
        ↔ (mL + 1 = (hubb.lt : Int) ∧ mI + 1 = (hubb.ls : Int)))) ∧
    ((∀ r ∈ rows, in_range hubb r) →
      (mL + 1 ≠ (hubb.lt : Int) ∨ mI + 1 ≠ (hubb.ls : Int)) →
      read_aux_field_configs io (some lines) hubb = Except.error ReadError.size_mismatch) ∧
    ((∃ r ∈ rows, ¬ in_range hubb r) →
      read_aux_field_configs io (some lines) hubb
        = Except.error ReadError.index_out_of_range) := by
  obtain ⟨hbad, hgood⟩ := read_aux_field_configs_parsed io hubb lines rows hrows
  -- when every row is in range the locals `lt`, `ls` end as the largest indices
  have hmax : (∀ r ∈ rows, in_range hubb r) →
      read_aux_field_configs io (some lines) hubb
        = (if mL + 1 = (hubb.lt : Int) ∧ mI + 1 = (hubb.ls : Int) then
            Except.ok
              (match store_rows rows { hubb := hubb, lt := 0, ls := 0 } with
                | Except.ok st1 => st1.hubb
                | Except.error _ => hubb)
           else Except.error ReadError.size_mismatch) := by
    intro hall
    obtain ⟨st1, h1, hread⟩ := hgood hall
    obtain ⟨st2, h2, _, _, a1, a2, a3, b1, b2, b3, _, _⟩ :=
      store_rows_ok rows { hubb := hubb, lt := 0, ls := 0 } hall
    rw [h1] at h2
    cases h2
    simp only at a1 a3 b1 b3
    obtain ⟨rL, hrL, erL⟩ := List.mem_map.mp hL.1
    obtain ⟨rI, hrI, erI⟩ := List.mem_map.mp hI.1
    have e1 : st1.lt = mL := by
      apply le_antisymm
      · rcases a3 with h | h
        · rw [h, ← erL]; exact (hall rL hrL).2.2.1
        · exact hL.2 _ h
      · rw [← erL]; exact a2 rL hrL
    have e2 : st1.ls = mI := by
      apply le_antisymm
      · rcases b3 with h | h
        · rw [h, ← erI]; exact (hall rI hrI).1
        · exact hI.2 _ h
      · rw [← erI]; exact b2 rI hrI
    rw [hread, e1, e2, h1]
  refine ⟨?_, ?_, ?_, hbad⟩
  · intro hne
    by_cases hall : ∀ r ∈ rows, in_range hubb r
    · refine ⟨ReadError.size_mismatch, ?_⟩
      rw [hmax hall, if_neg]
      rintro ⟨e1, e2⟩
      rcases hne with h | h
      · exact h e1
      · exact h e2
    · push_neg at hall
      exact ⟨_, hbad hall⟩
  · intro hnn
    constructor
    · rintro ⟨h1, hok⟩
      by_cases hall : ∀ r ∈ rows, in_range hubb r
      · rw [hmax hall] at hok
        by_contra hne
        rw [if_neg hne] at hok
        cases hok
      · push_neg at hall
        rw [hbad hall] at hok
        cases hok
    · rintro ⟨e1, e2⟩
      have hall : ∀ r ∈ rows, in_range hubb r := by
        intro r hr
        have h1 := hL.2 r.1 (List.mem_map.mpr ⟨r, hr, rfl⟩)
        have h2 := hI.2 r.2.1 (List.mem_map.mpr ⟨r, hr, rfl⟩)
        have h3 := hnn r hr
        unfold in_range
        omega
      rw [hmax hall, if_pos ⟨e1, e2⟩]
      exact ⟨_, rfl⟩
  · intro hall hne
    rw [hmax hall, if_neg]
    rintro ⟨e1, e2⟩
    rcases hne with h | h
    · exact h e1
    · exact h e2

/-- Claim C7 as amended, on the sample file (largest indices 1 and 1) read into a model with
`lt = 3`: the reader fails. -/
theorem read_aux_field_configs_size_check_witness :
    ∃ e, read_aux_field_configs sample_format (some sample_lines)
      { sample_field with lt := 3 } = Except.error e :=
  (read_aux_field_configs_size_check sample_format { sample_field with lt := 3 } sample_lines
    [(0, 0, 1), (1, 1, -1)] (by decide) 1 1 (by decide) (by decide)).1 (Or.inl (by decide))

/-- Claim C7 fails: the one-row file `2 0 1` read into a model with `lt = 2`, `ls = 1` has
largest time index `2`, and `2 + 1 ≠ lt`, but the row lies outside the field matrix and the
reader fails at the index assertion of `hubb.s(0, 2)`, not at a size assertion; likewise
the file `-1 0 1` read into a model with `lt = ls = 1` (largest time index `-1`). -/
theorem read_aux_field_configs_fails_before_size_check :
    (["2 0 1".toList].map (parse_row sample_format)
        = [((2 : Int), (0 : Int), (1 : ℚ))].map some ∧
      is_largest ([((2 : Int), (0 : Int), (1 : ℚ))].map (fun r => r.1)) 2 ∧
      (2 : Int) + 1 ≠ ((({ sample_field with ls := 1 } : Hubbard).lt : Nat) : Int) ∧
      read_aux_field_configs sample_format (some ["2 0 1".toList])
          { sample_field with ls := 1 } = Except.error ReadError.index_out_of_range ∧
      read_aux_field_configs sample_format (some ["2 0 1".toList])
          { sample_field with ls := 1 } ≠ Except.error ReadError.size_mismatch) ∧
    (["-1 0 1".toList].map (parse_row sample_format)
        = [((-1 : Int), (0 : Int), (1 : ℚ))].map some ∧
      is_largest ([((-1 : Int), (0 : Int), (1 : ℚ))].map (fun r => r.1)) (-1) ∧
      (-1 : Int) + 1 ≠ ((({ sample_field with ls := 1, lt := 1 } : Hubbard).lt : Nat) : Int) ∧
      read_aux_field_configs sample_format (some ["-1 0 1".toList])
          { sample_field with ls := 1, lt := 1 } = Except.error ReadError.index_out_of_range ∧
      read_aux_field_configs sample_format (some ["-1 0 1".toList])
          { sample_field with ls := 1, lt := 1 } ≠ Except.error ReadError.size_mismatch) := by
  have e1 : read_aux_field_configs sample_format (some ["2 0 1".toList])
      { sample_field with ls := 1 } = Except.error ReadError.index_out_of_range := rfl
  have e2 : read_aux_field_configs sample_format (some ["-1 0 1".toList])
      { sample_field with ls := 1, lt := 1 } = Except.error ReadError.index_out_of_range := rfl
  refine ⟨⟨by decide, by decide, by decide, e1, ?_⟩, ⟨by decide, by decide, by decide, e2, ?_⟩⟩
  · rw [e1]
    intro h
    cases h
  · rw [e2]
    intro h
    cases h

/-- Claim C8: for `1 ≤ ls, lt` (both of type `int`) and a field whose values survive the
number formatting, the lines written by `file_output_aux_field_configs` are one row per
pair, time index outermost, and `read_aux_field_configs` on a model of the same sizes
accepts them and leaves `s(i,l)` equal to the written value for all `i < ls`, `l < lt`. -/
theorem aux_field_round_trip (io : NumFormat) (h h0 : Hubbard)
    (hls : 1 ≤ h.ls) (hlt : 1 ≤ h.lt) (bls : h.ls < 2 ^ 31) (blt : h.lt < 2 ^ 31)
    (els : h0.ls = h.ls) (elt : h0.lt = h.lt)
    (hs : ∀ i l, i < h.ls → l < h.lt → io.survives (h.s i l)) :
    file_output_aux_field_configs io h
      = ((List.range h.lt).map (fun l =>
          (List.range h.ls).map (fun i => aux_field_row io h l i))).flatten ∧
    ∃ h1, read_aux_field_configs io (some (file_output_aux_field_configs io h)) h0
        = Except.ok h1 ∧
      ∀ i l, i < h.ls → l < h.lt → h1.s i l = h.s i l := by
  refine ⟨file_output_aux_field_configs_eq io h, ?_⟩
  have hrows := parse_written io h bls blt hs
  have hall : ∀ r ∈ written_rows h, in_range h0 r := by
    intro r hr
    obtain ⟨l, i, hl, hi, rfl⟩ := (mem_written_rows h r).mp hr
    unfold in_range
    simp only [els, elt]
    omega
  obtain ⟨st1, h1, hread⟩ :=
    (read_aux_field_configs_parsed io h0 _ (written_rows h) hrows).2 hall
  obtain ⟨st2, h2, _, _, a1, a2, a3, b1, b2, b3, _, c2⟩ :=
    store_rows_ok (written_rows h) { hubb := h0, lt := 0, ls := 0 } hall
  rw [h1] at h2
  cases h2
  simp only at a1 a3 b1 b3
  have hcorner : (((h.lt - 1 : Nat) : Int), ((h.ls - 1 : Nat) : Int), h.s (h.ls - 1) (h.lt - 1))
      ∈ written_rows h :=
    (mem_written_rows h _).mpr ⟨h.lt - 1, h.ls - 1, by omega, by omega, rfl⟩
  have e1 : st1.lt + 1 = (h0.lt : Int) := by
    have lo := a2 _ hcorner
    simp only at lo
    have hi : st1.lt < (h.lt : Int) := by
      rcases a3 with e | e
      · rw [e]; omega
      · obtain ⟨r, hr, er⟩ := List.mem_map.mp e
        obtain ⟨l, i, hl, _, rfl⟩ := (mem_written_rows h r).mp hr
        rw [← er]
        simp only
        omega
    rw [elt]
    omega
  have e2 : st1.ls + 1 = (h0.ls : Int) := by
    have lo := b2 _ hcorner
    simp only at lo
    have hi : st1.ls < (h.ls : Int) := by
      rcases b3 with e | e
      · rw [e]; omega
      · obtain ⟨r, hr, er⟩ := List.mem_map.mp e
        obtain ⟨l, i, _, hi, rfl⟩ := (mem_written_rows h r).mp hr
        rw [← er]
        simp only
        omega
    rw [els]
    omega
  refine ⟨st1.hubb, ?_, ?_⟩
  · rw [hread, if_pos ⟨e1, e2⟩]
  · intro i l hi hl
    obtain ⟨r, hr, r1, r2, r3⟩ := c2 i l
      ⟨((l : Int), (i : Int), h.s i l), (mem_written_rows h _).mpr ⟨l, i, hl, hi, rfl⟩, rfl, rfl⟩
    obtain ⟨l1, i1, _, _, rfl⟩ := (mem_written_rows h r).mp hr
    simp only at r1 r2 r3
    have : l1 = l := by exact_mod_cast r1
    have : i1 = i := by exact_mod_cast r2
    subst l1 i1
    exact r3

/-- The values `+1` and `-1` survive the sample formatting. -/
theorem sample_field_survives (i l : Nat) : sample_format.survives (sample_field.s i l) := by
  have hv : sample_field.s i l = 1 ∨ sample_field.s i l = -1 := by
    by_cases hp : (i + l) % 2 = 0
    · left; simp [sample_field, hp]
    · right; simp [sample_field, hp]
  rcases hv with e | e <;> rw [e] <;> unfold NumFormat.survives <;> decide

/-- Claim C8 on the sample checkerboard field, read into a model whose field is zero. -/
theorem aux_field_round_trip_witness :
    ∃ h1, read_aux_field_configs sample_format
        (some (file_output_aux_field_configs sample_format sample_field))
        { sample_field with s := fun _ _ => 0 } = Except.ok h1 ∧
      h1.s 1 0 = -1 := by
  obtain ⟨_, h1, hok, hval⟩ := aux_field_round_trip sample_format sample_field
    { sample_field with s := fun _ _ => 0 } (by decide) (by decide) (by decide) (by decide)
    rfl rfl (fun i l _ _ => sample_field_survives i l)
  refine ⟨h1, hok, (hval 1 0 (by decide) (by decide)).trans ?_⟩
  simp [sample_field]

/-- If the reading loop succeeds every line parsed. -/
theorem read_rows_ok_parsed (io : NumFormat) (lines : List (List Char)) (st st1 : ReadState)
    (hok : read_rows io lines st = Except.ok st1) :
    ∃ rows : List (Int × Int × ℚ), lines.map (parse_row io) = rows.map some := by
  induction lines generalizing st with
  | nil => exact ⟨[], rfl⟩
  | cons line rest ih =>
    cases hp : parse_row io line with
    | none => simp [read_rows, hp] at hok
    | some r =>
      cases hs : store_row r st with
      | error e => simp [read_rows, hp, hs] at hok
      | ok st2 =>
        simp only [read_rows, hp, hs] at hok
        obtain ⟨rows, hrows⟩ := ih st2 hok
        exact ⟨r :: rows, by simp [hp, hrows]⟩

/-- Lines and rows of a parsed file correspond. -/
theorem parsed_mem (io : NumFormat) (lines : List (List Char)) (rows : List (Int × Int × ℚ))
    (hrows : lines.map (parse_row io) = rows.map some) :
    (∀ r ∈ rows, ∃ line ∈ lines, parse_row io line = some r) ∧
    (∀ line ∈ lines, ∃ r ∈ rows, parse_row io line = some r) := by
  constructor
  · intro r hr
    have : some r ∈ lines.map (parse_row io) := by
      rw [hrows]; exact List.mem_map.mpr ⟨r, hr, rfl⟩
    obtain ⟨line, hl, e⟩ := List.mem_map.mp this
    exact ⟨line, hl, e⟩
  · intro line hl
    have : parse_row io line ∈ rows.map some := by
      rw [← hrows]; exact List.mem_map.mpr ⟨line, hl, rfl⟩
    obtain ⟨r, hr, e⟩ := List.mem_map.mp this
    exact ⟨r, hr, e.symm⟩

/-- Claim C9 fails: the sample file has the two rows `0 0 1` and `1 1 -1`; read into a model
with `ls = lt = 2` it passes both size assertions, yet no row addresses the entry
`s(0,1)`, which keeps its old value `0`. -/
theorem read_aux_field_configs_leaves_gaps :
    (∃ h1, read_aux_field_configs sample_format (some sample_lines)
        { sample_field with s := fun _ _ => 0 } = Except.ok h1 ∧ h1.s 0 1 = 0) ∧
    ∃ i l, i < sample_field.ls ∧ l < sample_field.lt ∧
      ∀ line ∈ sample_lines, ∀ r, parse_row sample_format line = some r →
        ¬ (r.1 = (l : Int) ∧ r.2.1 = (i : Int)) := by
  constructor
  · exact ⟨_, rfl, rfl⟩
  · refine ⟨0, 1, by decide, by decide, ?_⟩
    decide

/-- Claim C9 as amended: after `read_aux_field_configs` succeeds, every line of the file
is a row inside `[0,ls) × [0,lt)`; an entry `s(i,l)` for which the file has a row was
assigned from such a row, an entry for which it has none keeps the value it had before;
and a non-empty file has a row with `l = lt - 1` and a row with `i = ls - 1`. -/
theorem read_aux_field_configs_assigned (io : NumFormat) (hubb h1 : Hubbard)
    (lines : List (List Char))
    (hok : read_aux_field_configs io (some lines) hubb = Except.ok h1) :
    (∀ line ∈ lines, ∃ r, parse_row io line = some r ∧ in_range hubb r) ∧
    (∀ i l : Nat, i < hubb.ls → l < hubb.lt →
      ((∃ line ∈ lines, ∃ v, parse_row io line = some ((l : Int), (i : Int), v)) →
        ∃ line ∈ lines, ∃ v, parse_row io line = some ((l : Int), (i : Int), v) ∧ h1.s i l = v) ∧
      ((∀ line ∈ lines, ∀ v, parse_row io line ≠ some ((l : Int), (i : Int), v)) →
        h1.s i l = hubb.s i l)) ∧
    (lines ≠ [] →
      (∃ line ∈ lines, ∃ i v, parse_row io line = some ((hubb.lt : Int) - 1, i, v)) ∧
      (∃ line ∈ lines, ∃ l v, parse_row io line = some (l, (hubb.ls : Int) - 1, v))) := by
  -- the lines parse
  have hparse : ∃ rows : List (Int × Int × ℚ), lines.map (parse_row io) = rows.map some := by
    cases hr : read_rows io lines { hubb := hubb, lt := 0, ls := 0 } with
    | error e => simp [read_aux_field_configs, hr] at hok
    | ok st1 => exact read_rows_ok_parsed io lines _ st1 hr
  obtain ⟨rows, hrows⟩ := hparse
  obtain ⟨hbad, hgood⟩ := read_aux_field_configs_parsed io hubb lines rows hrows
  obtain ⟨toLine, toRow⟩ := parsed_mem io lines rows hrows
  have hall : ∀ r ∈ rows, in_range hubb r := by
    by_contra hne
    push_neg at hne
    rw [hbad hne] at hok
    cases hok
  obtain ⟨st1, hst, hread⟩ := hgood hall
  obtain ⟨st2, h2, _, _, a1, a2, a3, b1, b2, b3, c1, c2⟩ :=
    store_rows_ok rows { hubb := hubb, lt := 0, ls := 0 } hall
  rw [hst] at h2
  cases h2
  simp only at a1 a3 b1 b3 c1 c2
  rw [hread] at hok
  have hsize : st1.lt + 1 = (hubb.lt : Int) ∧ st1.ls + 1 = (hubb.ls : Int) := by
    by_contra hne
    rw [if_neg hne] at hok
    cases hok
  rw [if_pos hsize] at hok
  cases hok
  refine ⟨?_, ?_, ?_⟩
  · intro line hl
    obtain ⟨r, hr, e⟩ := toRow line hl
    exact ⟨r, e, hall r hr⟩
  · intro i l _ _
    constructor
    · rintro ⟨line, hl, v, e⟩
      obtain ⟨r0, hr0, e0⟩ := toRow line hl
      have hr0v : r0 = ((l : Int), (i : Int), v) := by
        rw [e0] at e; exact Option.some.inj e
      obtain ⟨r, hr, r1, r2, r3⟩ := c2 i l ⟨r0, hr0, by rw [hr0v], by rw [hr0v]⟩
      obtain ⟨line1, hl1, e1⟩ := toLine r hr
      refine ⟨line1, hl1, r.2.2, ?_, r3⟩
      rw [e1, ← r1, ← r2]
    · intro hno
      apply c1 i l
      intro r hr hidx
      obtain ⟨line, hl, e⟩ := toLine r hr
      apply hno line hl r.2.2
      rw [e, ← hidx.1, ← hidx.2]
  · intro hne
    have hrne : rows ≠ [] := by
      intro h0
      rw [h0] at hrows
      exact hne (List.map_eq_nil_iff.mp hrows)
    obtain ⟨r0, hr0⟩ := List.exists_mem_of_ne_nil rows hrne
    have hin0 := hall r0 hr0
    unfold in_range at hin0
    constructor
    · have : ∃ r ∈ rows, r.1 = (hubb.lt : Int) - 1 := by
        rcases a3 with e | e
        · exact ⟨r0, hr0, by omega⟩
        · obtain ⟨r, hr, er⟩ := List.mem_map.mp e
          exact ⟨r, hr, by rw [er]; omega⟩
      obtain ⟨r, hr, er⟩ := this
      obtain ⟨line, hl, e⟩ := toLine r hr
      exact ⟨line, hl, r.2.1, r.2.2, by rw [e, ← er]⟩
    · have : ∃ r ∈ rows, r.2.1 = (hubb.ls : Int) - 1 := by
        rcases b3 with e | e
        · exact ⟨r0, hr0, by omega⟩
        · obtain ⟨r, hr, er⟩ := List.mem_map.mp e
          exact ⟨r, hr, by rw [er]; omega⟩
      obtain ⟨r, hr, er⟩ := this
      obtain ⟨line, hl, e⟩ := toLine r hr
      exact ⟨line, hl, r.1, r.2.2, by rw [e, ← er]⟩

/-- Claim C9 as amended, on the sample file read into a model whose field is zero: the
reader succeeds and the entry `s(1,1)` holds the value of a row `1 1 v` of the file. -/
theorem read_aux_field_configs_assigned_witness :
    ∃ h1, read_aux_field_configs sample_format (some sample_lines)
        { sample_field with s := fun _ _ => 0 } = Except.ok h1 ∧
      ∃ line ∈ sample_lines, ∃ v,
        parse_row sample_format line = some (((1 : Nat) : Int), ((1 : Nat) : Int), v) ∧
          h1.s 1 1 = v :=
  ⟨_, rfl,
    ((read_aux_field_configs_assigned sample_format { sample_field with s := fun _ _ => 0 } _
      sample_lines rfl).2.1 1 1 (by decide) (by decide)).1
      ⟨"1   1 -1".toList, by decide, -1, by decide⟩⟩

/-- The file index `tau` for `l < lt`: `lt - 1` for `l = 0` and `l - 1` otherwise. -/
theorem tau_of_eq (lt l : Nat) (hl : l < lt) :
    tau_of lt l = if l = 0 then lt - 1 else l - 1 := by
  unfold tau_of
  split_ifs with h0
  · subst h0
    have : ((0 : Nat) : Int) - 1 + (lt : Int) = ((lt - 1 : Nat) : Int) := by omega
    rw [this, ← Int.natCast_mod, Int.toNat_natCast]
    exact Nat.mod_eq_of_lt (by omega)
  · have : (l : Int) - 1 + (lt : Int) = ((l - 1 + lt : Nat) : Int) := by omega
    rw [this, ← Int.natCast_mod, Int.toNat_natCast, Nat.add_mod_right]
    exact Nat.mod_eq_of_lt (by omega)

/-- The data rows written: for `l = 0, ..., lt - 1` in order, the row labelled `l` carries
mean, error and their quotient at index `tau_of lt l`. -/
theorem file_output_stats_dynamic_rows (lt : Nat) (d : DynamicStats) :
    file_output_stats_dynamic true lt d
      = (List.range lt).map (fun l =>
          { l := l
            mean := d.obs_mean_g_kt (tau_of lt l)
            err := d.obs_err_g_kt (tau_of lt l)
            rel_err := d.obs_err_g_kt (tau_of lt l) / d.obs_mean_g_kt (tau_of lt l) }) := by
  simp only [file_output_stats_dynamic, if_true]
  rw [forLoop_append_eq lt (fun l => [DynamicRow.mk l (d.obs_mean_g_kt (tau_of lt l))
    (d.obs_err_g_kt (tau_of lt l))
    (d.obs_err_g_kt (tau_of lt l) / d.obs_mean_g_kt (tau_of lt l))])]
  induction (List.range lt) with
  | nil => rfl
  | cons a t ih => simpa using ih

/-- The rows of `file_output_stats_dynamic`: exactly `lt` data rows, labelled
`l = 0, ..., lt - 1` in increasing order; the row labelled `l` carries the entries stored at
index `(l - 1 + lt) % lt` of `obs_mean_g_kt` and `obs_err_g_kt`, that is index `lt - 1` for
`l = 0` and index `l - 1` otherwise, and its fourth column is that error divided by that
mean; with `bool_measure_dynamic` off nothing is written. -/
theorem file_output_stats_dynamic_row_index (lt : Nat) (d : DynamicStats) :
    (file_output_stats_dynamic true lt d).length = lt ∧
    (file_output_stats_dynamic true lt d).map (fun r => r.l) = List.range lt ∧
    (∀ l, l < lt →
      tau_of lt l = (if l = 0 then lt - 1 else l - 1) ∧
      (file_output_stats_dynamic true lt d)[l]?
        = some { l := l
                 mean := d.obs_mean_g_kt (tau_of lt l)
                 err := d.obs_err_g_kt (tau_of lt l)
                 rel_err := d.obs_err_g_kt (tau_of lt l) / d.obs_mean_g_kt (tau_of lt l) }) ∧
    file_output_stats_dynamic false lt d = [] := by
  refine ⟨?_, ?_, ?_, rfl⟩
  · rw [file_output_stats_dynamic_rows]
    simp
  · rw [file_output_stats_dynamic_rows, List.map_map]
    conv_rhs => rw [← List.map_id (List.range lt)]
    rfl
  · intro l hl
    refine ⟨tau_of_eq lt l hl, ?_⟩
    rw [file_output_stats_dynamic_rows, List.getElem?_map, List.getElem?_range hl]
    rfl

/-- Claim C4, evaluated on the sample model (2 × 2 lattice, `ls = 4`, `tmp_rho_s = -16`): the
code adds `0.25 * (-16) / 4 / 4 = -1/4`, while one quarter of the base-site average, the
sum divided by `ls` once, is `-1`. -/
theorem measure_superfluid_stiffness_divides_twice :
    (measure_superfluid_stiffness sample_libm sample_hubbard
        sample_measure).superfluid_stiffness.tmp_value
      = sample_measure.superfluid_stiffness.tmp_value + (-1 / 4) ∧
    spec_stiffness_increment sample_libm sample_hubbard = -1 := by
  have e : tmp_rho_s sample_libm sample_hubbard = -16 := by
    rw [tmp_rho_s_eq_sum]
    simp only [sample_hubbard, Finset.sum_range_succ, Finset.sum_range_zero, rho_s_term,
      sample_libm, unit_greens, zero_greens]
    norm_num
  constructor
  · simp only [measure_superfluid_stiffness, e]
    norm_num [sample_hubbard]
  · simp only [spec_stiffness_increment, sample_hubbard, Finset.sum_range_succ,
      Finset.sum_range_zero, rho_s_term, sample_libm, unit_greens, zero_greens]
    norm_num

/-- The summand of `tmp_rho_s` reads `g00` at the last slice and the other six matrices at
the slice `stiffness_tau lt l`. -/
theorem rho_s_term_eq_summand (lib : Libm) (h : Hubbard) (l xi yi dx dy : Nat) :
    rho_s_term lib h l xi yi dx dy
      = rho_s_summand lib h (h.vec_green_tt_up (h.lt - 1)) (h.vec_green_tt_dn (h.lt - 1))
          (h.vec_green_t0_up (stiffness_tau h.lt l)) (h.vec_green_0t_up (stiffness_tau h.lt l))
          (h.vec_green_tt_up (stiffness_tau h.lt l))
          (h.vec_green_t0_dn (stiffness_tau h.lt l)) (h.vec_green_0t_dn (stiffness_tau h.lt l))
          (h.vec_green_tt_dn (stiffness_tau h.lt l)) xi yi dx dy := rfl

/-- Claim C16: `time_displaced_measure` and `normalize_stats` leave every bin slot of every
accumulator unchanged; `write_stats_to_bins b` sets slot `b` of each accumulator to its
current running sum and leaves every other slot, the running sums and the counts
unchanged. -/
theorem bin_slots_written_at_commit_only (lib : Libm) (h : Hubbard) (dm : DynamicMeasure)
    (b : Nat) :
    (∃ dm1, time_displaced_measure lib h dm = some dm1 ∧ dm1.bins = dm.bins) ∧
    (normalize_stats h dm).bins = dm.bins ∧
    (write_stats_to_bins b h dm).slot b = dm.tmps ∧
    (∀ b1, b1 ≠ b → (write_stats_to_bins b h dm).slot b1 = dm.slot b1) ∧
    (write_stats_to_bins b h dm).tmps = dm.tmps ∧
    (write_stats_to_bins b h dm).all_counts = dm.all_counts := by
  refine ⟨⟨measured lib h dm, time_displaced_measure_eq lib h dm, rfl⟩, rfl, ?_, ?_, rfl, rfl⟩
  · simp [write_stats_to_bins, DynamicMeasure.slot, DynamicMeasure.tmps]
  · intro b1 hb1
    simp [write_stats_to_bins, DynamicMeasure.slot, Function.update_noteq hb1]

/-- Claim C17: `measure_matsubara_greens` and `measure_density_of_states` give the same
result on two models that differ only in the spin-down Green's functions; the matrix
`gt0`, the half sum of a spin-up matrix with itself, is that spin-up matrix, and for
`t < lt` the increments are computed from it alone. -/
theorem measurements_ignore_spin_down (lib : Libm) (t : Nat) (h : Hubbard) (dm : DynamicMeasure)
    (tt_dn t0_dn g0t_dn : Nat → Mat) :
    measure_matsubara_greens lib t
        { h with vec_green_tt_dn := tt_dn, vec_green_t0_dn := t0_dn, vec_green_0t_dn := g0t_dn }
        dm
      = measure_matsubara_greens lib t h dm ∧
    measure_density_of_states t
        { h with vec_green_tt_dn := tt_dn, vec_green_t0_dn := t0_dn, vec_green_0t_dn := g0t_dn }
        dm
      = measure_density_of_states t h dm ∧
    gt0 h t = (if t = 0 then h.vec_green_tt_up (h.lt - 1) else h.vec_green_t0_up (t - 1)) ∧
    (t < h.lt →
      measure_matsubara_greens lib t h dm
        = some (dm.add_matsubara_greens t
            (h.config_sign * matsubara_kernel lib dm.q h
              (if t = 0 then h.vec_green_tt_up (h.lt - 1) else h.vec_green_t0_up (t - 1)))) ∧
      measure_density_of_states t h dm
        = some (dm.add_density_of_states t
            (h.config_sign * density_kernel h
              (if t = 0 then h.vec_green_tt_up (h.lt - 1) else h.vec_green_t0_up (t - 1))))) := by
  have hg : gt0 h t
      = (if t = 0 then h.vec_green_tt_up (h.lt - 1) else h.vec_green_t0_up (t - 1)) := by
    funext a b
    unfold gt0
    split_ifs <;> ring
  refine ⟨rfl, rfl, hg, fun ht => ?_⟩
  rw [measure_matsubara_greens_eq lib t h dm ht, measure_density_of_states_eq t h dm ht, hg]
  exact ⟨rfl, rfl⟩

/-- Repeated measurement never aborts; every count grows by the number of calls and the
sign sum by the sum of the configuration signs. -/
theorem measure_all_spec (lib : Libm) (hs : List Hubbard) (dm0 : DynamicMeasure) :
    ∃ dm, measure_all lib hs dm0 = some dm ∧
      dm.sign.counts = dm0.sign.counts + hs.length ∧
      dm.matsubara_greens.counts = dm0.matsubara_greens.counts + hs.length ∧
      dm.density_of_states.counts = dm0.density_of_states.counts + hs.length ∧
      dm.superfluid_stiffness.counts = dm0.superfluid_stiffness.counts + hs.length ∧
      dm.sign.tmp_value = dm0.sign.tmp_value + (hs.map (fun h => h.config_sign)).sum := by
  induction hs generalizing dm0 with
  | nil => exact ⟨dm0, rfl, rfl, rfl, rfl, rfl, by simp⟩
  | cons h rest ih =>
    obtain ⟨dm, h1, c1, c2, c3, c4, s1⟩ := ih (measured lib h dm0)
    refine ⟨dm, ?_, ?_, ?_, ?_, ?_, ?_⟩
    · simp [measure_all, time_displaced_measure_eq, h1]
    · rw [c1]; simp only [measured, List.length_cons]; omega
    · rw [c2]; simp only [measured, List.length_cons]; omega
    · rw [c3]; simp only [measured, List.length_cons]; omega
    · rw [c4]; simp only [measured, List.length_cons]; omega
    · rw [s1]; simp only [measured, List.map_cons, List.sum_cons]; ring

/-- Claim C18: starting from accumulators with zero running sums and zero counts, after
`n ≥ 1` calls of `time_displaced_measure` (one per model state of `hs`) all four
accumulators have count `n` and the sign sum is the sum of the configuration signs; when
that sum is not zero, after `normalize_stats` every observable times the sign sum is its
raw sum, that is, the observable is its raw sum divided by the raw sign sum. -/
theorem measure_all_counts_cancel (lib : Libm) (hs : List Hubbard) (dm0 : DynamicMeasure)
    (hcount : dm0.all_counts = (0, 0, 0, 0)) (htmp : dm0.tmps = (0, 0, 0, 0))
    (hn : 1 ≤ hs.length) (hsign : (hs.map (fun h => h.config_sign)).sum ≠ 0) (h : Hubbard) :
    ∃ dm, measure_all lib hs dm0 = some dm ∧
      dm.all_counts = (hs.length, hs.length, hs.length, hs.length) ∧
      dm.sign.tmp_value = (hs.map (fun h => h.config_sign)).sum ∧
      (∀ k, (normalize_stats h dm).matsubara_greens.tmp_value k
          * (hs.map (fun h => h.config_sign)).sum = dm.matsubara_greens.tmp_value k) ∧
      (∀ k, (normalize_stats h dm).density_of_states.tmp_value k
          * (hs.map (fun h => h.config_sign)).sum = dm.density_of_states.tmp_value k) ∧
      (normalize_stats h dm).superfluid_stiffness.tmp_value
          * (hs.map (fun h => h.config_sign)).sum = dm.superfluid_stiffness.tmp_value ∧
      (∀ k, (normalize_stats h dm).matsubara_greens.tmp_value k
          = dm.matsubara_greens.tmp_value k / (hs.map (fun h => h.config_sign)).sum) ∧
      (∀ k, (normalize_stats h dm).density_of_states.tmp_value k
          = dm.density_of_states.tmp_value k / (hs.map (fun h => h.config_sign)).sum) ∧
      (normalize_stats h dm).superfluid_stiffness.tmp_value
          = dm.superfluid_stiffness.tmp_value / (hs.map (fun h => h.config_sign)).sum := by
  obtain ⟨dm, h1, c1, c2, c3, c4, s1⟩ := measure_all_spec lib hs dm0
  simp only [DynamicMeasure.all_counts, Prod.mk.injEq] at hcount
  simp only [DynamicMeasure.tmps, Prod.mk.injEq] at htmp
  rw [hcount.1, zero_add] at c1
  rw [hcount.2.1, zero_add] at c2
  rw [hcount.2.2.1, zero_add] at c3
  rw [hcount.2.2.2, zero_add] at c4
  rw [htmp.1, zero_add] at s1
  have hn0 : ((hs.length : Nat) : ℚ) ≠ 0 := Nat.cast_ne_zero.mpr (by omega)
  have hdiv : ∀ x : ℚ, x / ((hs.length : ℚ) * ((hs.map (fun h => h.config_sign)).sum
      / (hs.length : ℚ))) = x / (hs.map (fun h => h.config_sign)).sum := by
    intro x
    rw [mul_div_cancel₀ _ hn0]
  have hmg : ∀ k, (normalize_stats h dm).matsubara_greens.tmp_value k
      = dm.matsubara_greens.tmp_value k / (hs.map (fun h => h.config_sign)).sum := by
    intro k
    simp only [normalize_stats, c1, c2, s1]
    exact hdiv _
  have hdos : ∀ k, (normalize_stats h dm).density_of_states.tmp_value k
      = dm.density_of_states.tmp_value k / (hs.map (fun h => h.config_sign)).sum := by
    intro k
    simp only [normalize_stats, c1, c3, s1]
    exact hdiv _
  have hsf : (normalize_stats h dm).superfluid_stiffness.tmp_value
      = dm.superfluid_stiffness.tmp_value / (hs.map (fun h => h.config_sign)).sum := by
    simp only [normalize_stats, c1, c4, s1]
    exact hdiv _
  refine ⟨dm, h1, ?_, s1, ?_, ?_, ?_, hmg, hdos, hsf⟩
  · simp only [DynamicMeasure.all_counts, c1, c2, c3, c4]
  · intro k; rw [hmg k]; exact div_mul_cancel₀ _ hsign
  · intro k; rw [hdos k]; exact div_mul_cancel₀ _ hsign
  · rw [hsf]; exact div_mul_cancel₀ _ hsign

/-- Claim C18 on two calls with the sample model, starting from cleared accumulators: all
four counts are two and the sign sum is two. -/
theorem measure_all_counts_cancel_witness :
    ∃ dm, measure_all sample_libm [sample_hubbard, sample_hubbard]
        (clear_temporary sample_hubbard sample_measure) = some dm ∧
      dm.all_counts = (2, 2, 2, 2) ∧ dm.sign.tmp_value = 2 := by
  obtain ⟨dm, h1, h2, h3, _⟩ := measure_all_counts_cancel sample_libm
    [sample_hubbard, sample_hubbard] (clear_temporary sample_hubbard sample_measure)
    rfl rfl (by decide) (by norm_num [sample_hubbard]) sample_hubbard
  exact ⟨dm, h1, h2, h3.trans (by norm_num [sample_hubbard])⟩

/-- A loop whose every iteration adds `c` to a counter adds `n * c` in `n` iterations. -/
theorem forLoopM_counter {σ : Type} (μ : σ → Nat) (c n : Nat) (body : Nat → σ → Option σ)
    (hb : ∀ k, k < n → ∀ s, ∃ s1, body k s = some s1 ∧ μ s1 = μ s + c) (init : σ) :
    ∃ s1, forLoopM n body init = some s1 ∧ μ s1 = μ init + n * c := by
  induction n with
  | zero => exact ⟨init, rfl, by simp⟩
  | succ n ih =>
    obtain ⟨s1, h1, r1⟩ := ih (fun k hk s => hb k (Nat.lt_succ_of_lt hk) s)
    obtain ⟨s2, h2, r2⟩ := hb n (Nat.lt_succ_self n) s1
    refine ⟨s2, by simp [forLoopM, h1, h2], ?_⟩
    rw [r2, r1]
    ring

/-- Every `sweep_back_and_forth` is two sweeps. -/
theorem sweep_count_sweep_events (bool_eqtime bool_dynamic : Bool) :
    sweep_count (sweep_events bool_eqtime bool_dynamic) = 2 := by
  cases bool_eqtime <;> cases bool_dynamic <;> decide

/-- The measuring sweeps of a bin are `2 * (nsweep / 2)` sweeps. -/
theorem measure_sweeps_count {E : Type} (eng : Engine E) (lib : Libm) (st : DetQMC E) :
    ∃ s1, measure_sweeps eng lib st = some s1 ∧
      sweep_count s1.trace = sweep_count st.trace + 2 * (st.nsweep / 2) := by
  have key := forLoopM_counter (fun s : DetQMC E => sweep_count s.trace) 2 (st.nsweep / 2)
    (fun _ st => sweep_back_and_forth eng lib st.bool_measure_eqtime st.bool_measure_dynamic st)
    (by
      intro k _ s
      obtain ⟨s1, h1, _, h3, _⟩ :=
        sweep_back_and_forth_spec eng lib s.bool_measure_eqtime s.bool_measure_dynamic s
      refine ⟨s1, h1, ?_⟩
      simp only [h3, sweep_count, List.countP_append]
      exact congrArg _ (sweep_count_sweep_events _ _)) st
  obtain ⟨s1, h1, h2⟩ := key
  exact ⟨s1, h1, by rw [h2]; ring⟩

/-- Claim C12, evaluated for `nsweep = 3` (and `nsweep = 4`): with `nsweep = 3` the measuring
sweeps of a bin are one `sweep_back_and_forth`, two sweeps and not three; with `nsweep = 4`
they are four. -/
theorem measure_sweeps_odd_nsweep :
    (∃ s1, measure_sweeps sample_engine sample_libm { sample_driver with nsweep := 3 } = some s1 ∧
      sweep_count s1.trace = 2) ∧
    (∃ s1, measure_sweeps sample_engine sample_libm { sample_driver with nsweep := 4 } = some s1 ∧
      sweep_count s1.trace = 4) := by
  constructor
  · obtain ⟨s1, h1, h2⟩ :=
      measure_sweeps_count sample_engine sample_libm { sample_driver with nsweep := 3 }
    exact ⟨s1, h1, h2⟩
  · obtain ⟨s1, h1, h2⟩ :=
      measure_sweeps_count sample_engine sample_libm { sample_driver with nsweep := 4 }
    exact ⟨s1, h1, h2⟩

/-- The values written by `file_output_stats_in_bins_dynamic`: for every bin `b < nbin` in
order its label and, for `l = 0, ..., lt - 1` in order, the per-bin value at index
`tau_of lt l`. -/
theorem file_output_stats_in_bins_dynamic_rows (nbin lt : Nat) (d : DynamicStats) :
    file_output_stats_in_bins_dynamic true nbin lt d
      = (List.range nbin).map (fun b =>
          (b, (List.range lt).map (fun l => d.obs_bin_g_kt b (tau_of lt l)))) := by
  have inner : ∀ (b : Nat), forLoop lt (fun l vals => vals ++ [d.obs_bin_g_kt b (tau_of lt l)]) []
      = (List.range lt).map (fun l => d.obs_bin_g_kt b (tau_of lt l)) := by
    intro b
    rw [forLoop_append_eq lt (fun l => [d.obs_bin_g_kt b (tau_of lt l)])]
    induction (List.range lt) with
    | nil => rfl
    | cons a t ih => simpa using ih
  simp only [file_output_stats_in_bins_dynamic, if_true, inner]
  rw [forLoop_append_eq nbin (fun b =>
    [(b, (List.range lt).map (fun l => d.obs_bin_g_kt b (tau_of lt l)))])]
  induction (List.range nbin) with
  | nil => rfl
  | cons a t ih => simpa using ih

/-- The recomputed number of warm-up sweeps: with `ll` or `beta` given and `nwarm` not, it
is `4 * ll * ll * (int)beta`, the truncation applied to `beta` alone. -/
theorem main_nwarm_recomputed (ll : Option Int) (beta : Option ℚ)
    (hgiven : ll.isSome = true ∨ beta.isSome = true) :
    main_nwarm { ll := ll, beta := beta, nwarm := none }
      = 4 * ll.getD 4 * ll.getD 4 * int_cast (beta.getD 4) := by
  rcases hgiven with h | h <;> simp [main_nwarm, h]

/-- Claim C13, evaluated for the command line `--beta 0.5` (`ll` and `nwarm` not given): the
code uses `4 * 4 * 4 * (int)0.5 = 0` warm-up sweeps, while `(int)(4 * 4 * 4 * 0.5)` is `32`;
for `--beta 2.5` the code uses `128` and the documented default is `160`. -/
theorem main_nwarm_truncates_beta_first :
    main_nwarm { ll := none, beta := some (1 / 2), nwarm := none } = 0 ∧
    spec_nwarm 4 (1 / 2) = 32 ∧
    main_nwarm { ll := none, beta := some (5 / 2), nwarm := none } = 128 ∧
    spec_nwarm 4 (5 / 2) = 160 := by
  have f1 : int_cast (1 / 2) = 0 := by
    simp only [int_cast]
    rw [if_pos (by norm_num), Int.floor_eq_iff]
    norm_num
  have f2 : int_cast (5 / 2) = 2 := by
    simp only [int_cast]
    rw [if_pos (by norm_num), Int.floor_eq_iff]
    norm_num
  have f3 : int_cast (4 * ((4 : Int) : ℚ) * ((4 : Int) : ℚ) * (1 / 2)) = 32 := by
    simp only [int_cast]
    rw [if_pos (by norm_num), Int.floor_eq_iff]
    norm_num
  have f4 : int_cast (4 * ((4 : Int) : ℚ) * ((4 : Int) : ℚ) * (5 / 2)) = 160 := by
    simp only [int_cast]
    rw [if_pos (by norm_num), Int.floor_eq_iff]
    norm_num
  refine ⟨?_, f3, ?_, f4⟩
  · rw [main_nwarm_recomputed none (some (1 / 2)) (Or.inr rfl)]
    simp only [Option.getD_some, f1]
    rfl
  · rw [main_nwarm_recomputed none (some (5 / 2)) (Or.inr rfl)]
    simp only [Option.getD_some, f2]
    rfl

/-- Claim C14 fails: on the sample model (one slice, the spin-up `vec_green_t0_up[0]` is the
identity, `vec_green_tt_up[0]` is zero) the matrix read as `gt0_up` at `l = 0` is not the
equal-time matrix of the last slice, and the summand for base site `(0,0)` and displacement
`(1,0)` is `-4`, while it is `0` when both `gt0` are replaced by the equal-time matrices
`vec_green_tt[lt-1]`. -/
theorem stiffness_gt0_not_equal_time :
    sample_hubbard.vec_green_t0_up (stiffness_tau sample_hubbard.lt 0) 0 0 = 1 ∧
    sample_hubbard.vec_green_tt_up (sample_hubbard.lt - 1) 0 0 = 0 ∧
    rho_s_term sample_libm sample_hubbard 0 0 0 1 0 = -4 ∧
    rho_s_summand sample_libm sample_hubbard
      (sample_hubbard.vec_green_tt_up (sample_hubbard.lt - 1))
      (sample_hubbard.vec_green_tt_dn (sample_hubbard.lt - 1))
      (sample_hubbard.vec_green_tt_up (sample_hubbard.lt - 1))
      (sample_hubbard.vec_green_0t_up (stiffness_tau sample_hubbard.lt 0))
      (sample_hubbard.vec_green_tt_up (stiffness_tau sample_hubbard.lt 0))
      (sample_hubbard.vec_green_tt_dn (sample_hubbard.lt - 1))
      (sample_hubbard.vec_green_0t_dn (stiffness_tau sample_hubbard.lt 0))
      (sample_hubbard.vec_green_tt_dn (stiffness_tau sample_hubbard.lt 0)) 0 0 1 0 = 0 := by
  refine ⟨?_, ?_, ?_, ?_⟩
  · simp [sample_hubbard, unit_greens]
  · simp [sample_hubbard, zero_greens]
  · simp only [rho_s_term, sample_hubbard, sample_libm, unit_greens, zero_greens]
    norm_num
  · simp only [rho_s_summand, sample_hubbard, sample_libm, unit_greens, zero_greens,
      stiffness_tau]
    norm_num

/-- Claim C14 as amended: at `l = 0` the routine reads all its per-slice matrices at the last
slice `lt - 1`: the `G(t,0)` entering the correlated part is the time-displaced
`vec_green_t0[lt-1]` (and `G(0,t)` is `vec_green_0t[lt-1]`), for both spin species; the
equal-time `gtt` at `l = 0` is the matrix `vec_green_tt[lt-1]` that the routine uses as
`G(0,0)` and that `measure_matsubara_greens` uses as `gt0` at `t = 0`. -/
theorem stiffness_slice_zero (lib : Libm) (h : Hubbard) (xi yi dx dy : Nat) :
    stiffness_tau h.lt 0 = h.lt - 1 ∧
    rho_s_term lib h 0 xi yi dx dy
      = rho_s_summand lib h (h.vec_green_tt_up (h.lt - 1)) (h.vec_green_tt_dn (h.lt - 1))
          (h.vec_green_t0_up (h.lt - 1)) (h.vec_green_0t_up (h.lt - 1))
          (h.vec_green_tt_up (h.lt - 1))
          (h.vec_green_t0_dn (h.lt - 1)) (h.vec_green_0t_dn (h.lt - 1))
          (h.vec_green_tt_dn (h.lt - 1)) xi yi dx dy ∧
    gt0 h 0 = h.vec_green_tt_up (h.lt - 1) := by
  refine ⟨rfl, rfl, ?_⟩
  funext a b
  simp only [gt0, if_true]
  ring

/-- A site index built from a column and a row below `L` is below `L * L`, and column and
row are recovered by remainder and quotient. -/
theorem site_index_bounds (L a b : Nat) (ha : a < L) (hb : b < L) :
    a + L * b < L * L ∧ (a + L * b) % L = a ∧ (a + L * b) / L = b := by
  have hL : 0 < L := by omega
  refine ⟨?_, ?_, ?_⟩
  · calc a + L * b < L + L * b := by omega
      _ = L * (b + 1) := by ring
      _ ≤ L * L := Nat.mul_le_mul_left L (by omega)
  · rw [Nat.add_mul_mod_self_left, Nat.mod_eq_of_lt ha]
  · rw [Nat.add_mul_div_left _ _ hL, Nat.div_eq_of_lt ha, Nat.zero_add]

/-- Shifting by `d < L` modulo `L` is one-to-one in `d`. -/
theorem shift_mod_inj (L a d1 d2 : Nat) (h1 : d1 < L) (h2 : d2 < L)
    (h : (a + d1) % L = (a + d2) % L) : d1 = d2 :=
  Nat.ModEq.eq_of_lt_of_lt (Nat.ModEq.add_left_cancel' a h) h1 h2

/-- Every column `c < L` is reached from `a` by a shift `d < L` modulo `L`. -/
theorem shift_mod_surj (L a c : Nat) (ha : a < L) (hc : c < L) :
    ∃ d, d < L ∧ (a + d) % L = c := by
  refine ⟨(c + L - a) % L, Nat.mod_lt _ (by omega), ?_⟩
  rw [Nat.add_mod_mod]
  have : a + (c + L - a) = c + L := by omega
  rw [this, Nat.add_mod_right, Nat.mod_eq_of_lt hc]

/-- Claim C15: for `xi, yi, dx, dy < L` (so `L ≥ 1`) the site indices `i`, `ipx`, `j`, `jpx` of
the two measurement routines lie below `L * L`; `ipx` and `jpx` are in the same row as `i`
and `j` and in the column one further modulo `L`; and for a fixed base site the map
`(dx, dy) ↦ j` is one-to-one from `[0,L)²` onto `[0, L*L)`. -/
theorem site_indices_periodic (L : Nat) :
    (∀ xi yi dx dy, xi < L → yi < L → dx < L → dy < L →
      site_i L xi yi < L * L ∧ site_ipx L xi yi < L * L ∧
      site_j L xi yi dx dy < L * L ∧ site_jpx L xi yi dx dy < L * L ∧
      site_ipx L xi yi / L = site_i L xi yi / L ∧
      site_ipx L xi yi % L = (site_i L xi yi % L + 1) % L ∧
      site_jpx L xi yi dx dy / L = site_j L xi yi dx dy / L ∧
      site_jpx L xi yi dx dy % L = (site_j L xi yi dx dy % L + 1) % L) ∧
    (∀ xi yi, xi < L → yi < L →
      (∀ dx dy dx1 dy1, dx < L → dy < L → dx1 < L → dy1 < L →
        site_j L xi yi dx dy = site_j L xi yi dx1 dy1 → dx = dx1 ∧ dy = dy1) ∧
      (∀ k, k < L * L → ∃ dx dy, dx < L ∧ dy < L ∧ site_j L xi yi dx dy = k)) ∧
    (∀ (lib : Libm) (q : ℚ × ℚ) (h : Hubbard) (g : Mat) (xi yi dx dy : Nat),
      matsubara_term lib q h g xi yi dx dy
        = lib.cos (-((dx : ℚ) * q.1 + (dy : ℚ) * q.2))
            * g (site_j h.ll xi yi dx dy) (site_i h.ll xi yi) / (h.ls : ℚ)) ∧
    (∀ (lib : Libm) (h : Hubbard) (g00_up g00_dn gt0_up g0t_up gtt_up gt0_dn g0t_dn gtt_dn : Mat)
        (xi yi dx dy : Nat),
      rho_s_summand lib h g00_up g00_dn gt0_up g0t_up gtt_up gt0_dn g0t_dn gtt_dn xi yi dx dy
        = rho_s_at_sites lib h g00_up g00_dn gt0_up g0t_up gtt_up gt0_dn g0t_dn gtt_dn dx dy
            (site_i h.ll xi yi) (site_ipx h.ll xi yi) (site_j h.ll xi yi dx dy)
            (site_jpx h.ll xi yi dx dy)) := by
  refine ⟨?_, ?_, fun _ _ _ _ _ _ _ _ => rfl, fun _ _ _ _ _ _ _ _ _ _ _ _ _ _ => rfl⟩
  · intro xi yi dx dy hxi hyi hdx hdy
    have hL : 0 < L := by omega
    have m1 : (xi + 1) % L < L := Nat.mod_lt _ hL
    have m2 : (xi + dx) % L < L := Nat.mod_lt _ hL
    have m3 : (xi + dx + 1) % L < L := Nat.mod_lt _ hL
    have m4 : (yi + dy) % L < L := Nat.mod_lt _ hL
    obtain ⟨a1, a2, a3⟩ := site_index_bounds L xi yi hxi hyi
    obtain ⟨b1, b2, b3⟩ := site_index_bounds L _ yi m1 hyi
    obtain ⟨c1, c2, c3⟩ := site_index_bounds L _ _ m2 m4
    obtain ⟨d1, d2, d3⟩ := site_index_bounds L _ _ m3 m4
    refine ⟨a1, b1, c1, d1, ?_, ?_, ?_, ?_⟩
    · simp only [site_ipx, site_i]; rw [b3, a3]
    · simp only [site_ipx, site_i]; rw [b2, a2]
    · simp only [site_jpx, site_j]; rw [d3, c3]
    · simp only [site_jpx, site_j]; rw [d2, c2, Nat.mod_add_mod]
  · intro xi yi hxi hyi
    have hL : 0 < L := by omega
    constructor
    · intro dx dy dx1 dy1 hdx hdy hdx1 hdy1 hj
      simp only [site_j] at hj
      have m2 : (xi + dx) % L < L := Nat.mod_lt _ hL
      have m4 : (yi + dy) % L < L := Nat.mod_lt _ hL
      have n2 : (xi + dx1) % L < L := Nat.mod_lt _ hL
      have n4 : (yi + dy1) % L < L := Nat.mod_lt _ hL
      obtain ⟨_, c2, c3⟩ := site_index_bounds L _ _ m2 m4
      obtain ⟨_, e2, e3⟩ := site_index_bounds L _ _ n2 n4
      have hcol : (xi + dx) % L = (xi + dx1) % L := by rw [← c2, hj, e2]
      have hrow : (yi + dy) % L = (yi + dy1) % L := by rw [← c3, hj, e3]
      exact ⟨shift_mod_inj L xi dx dx1 hdx hdx1 hcol, shift_mod_inj L yi dy dy1 hdy hdy1 hrow⟩
    · intro k hk
      have hc : k % L < L := Nat.mod_lt _ hL
      have hr : k / L < L := Nat.div_lt_of_lt_mul hk
      obtain ⟨dx, hdx, ex⟩ := shift_mod_surj L xi (k % L) hxi hc
      obtain ⟨dy, hdy, ey⟩ := shift_mod_surj L yi (k / L) hyi hr
      refine ⟨dx, dy, hdx, hdy, ?_⟩
      simp only [site_j]
      rw [ex, ey]
      exact Nat.mod_add_div k L


/-- A sum over all shifts modulo `L` is a sum over all columns. -/
theorem sum_shift_mod (L a : Nat) (ha : a < L) (f : Nat → ℚ) :
    ∑ d in Finset.range L, f ((a + d) % L) = ∑ c in Finset.range L, f c := by
  have hL : 0 < L := by omega
  refine Finset.sum_bij (fun d _ => (a + d) % L) ?_ ?_ ?_ ?_
  · intro d _
    exact Finset.mem_range.mpr (Nat.mod_lt _ hL)
  · intro d1 h1 d2 h2 h
    exact shift_mod_inj L a d1 d2 (Finset.mem_range.mp h1) (Finset.mem_range.mp h2) h
  · intro c hc
    obtain ⟨d, hd, e⟩ := shift_mod_surj L a c ha (Finset.mem_range.mp hc)
    exact ⟨d, Finset.mem_range.mpr hd, e⟩
  · intro d _
    rfl

/-- A sum over columns and rows is a sum over the site indices. -/
theorem sum_grid (L n : Nat) (f : Nat → ℚ) :
    ∑ x in Finset.range L, ∑ y in Finset.range n, f (x + L * y)
      = ∑ k in Finset.range (L * n), f k := by
  induction n with
  | zero => simp
  | succ n ih =>
    rw [Nat.mul_succ, Finset.sum_range_add, ← ih, ← Finset.sum_add_distrib]
    refine Finset.sum_congr rfl (fun x _ => ?_)
    rw [Finset.sum_range_succ, Nat.add_comm (L * n) x]

/-- At momentum zero, with `ls = ll * ll` and `cos 0 = 1`, the kernel of the Matsubara
measurement is the sum of all entries of the matrix divided by `ls`. -/
theorem matsubara_kernel_zero_momentum (lib : Libm) (h : Hubbard) (g : Mat)
    (hcos : lib.cos 0 = 1) (hls : h.ls = h.ll * h.ll) :
    matsubara_kernel lib (0, 0) h g
      = (∑ a in Finset.range h.ls, ∑ b in Finset.range h.ls, g a b) / (h.ls : ℚ) := by
  have hterm : ∀ xi yi dx dy, matsubara_term lib (0, 0) h g xi yi dx dy
      = g ((xi + dx) % h.ll + h.ll * ((yi + dy) % h.ll)) (xi + h.ll * yi) / (h.ls : ℚ) := by
    intro xi yi dx dy
    simp [matsubara_term, hcos]
  have hdisp : ∀ xi yi, xi < h.ll → yi < h.ll →
      ∑ dx in Finset.range h.ll, ∑ dy in Finset.range h.ll,
        g ((xi + dx) % h.ll + h.ll * ((yi + dy) % h.ll)) (xi + h.ll * yi) / (h.ls : ℚ)
      = ∑ k in Finset.range h.ls, g k (xi + h.ll * yi) / (h.ls : ℚ) := by
    intro xi yi hxi hyi
    have e1 : ∀ dx, ∑ dy in Finset.range h.ll,
        g ((xi + dx) % h.ll + h.ll * ((yi + dy) % h.ll)) (xi + h.ll * yi) / (h.ls : ℚ)
        = ∑ r in Finset.range h.ll,
            g ((xi + dx) % h.ll + h.ll * r) (xi + h.ll * yi) / (h.ls : ℚ) :=
      fun dx => sum_shift_mod h.ll yi hyi
        (fun r => g ((xi + dx) % h.ll + h.ll * r) (xi + h.ll * yi) / (h.ls : ℚ))
    simp only [e1]
    rw [Finset.sum_comm]
    have e2 : ∀ r, ∑ dx in Finset.range h.ll,
        g ((xi + dx) % h.ll + h.ll * r) (xi + h.ll * yi) / (h.ls : ℚ)
        = ∑ c in Finset.range h.ll, g (c + h.ll * r) (xi + h.ll * yi) / (h.ls : ℚ) :=
      fun r => sum_shift_mod h.ll xi hxi
        (fun c => g (c + h.ll * r) (xi + h.ll * yi) / (h.ls : ℚ))
    simp only [e2]
    rw [Finset.sum_comm, hls]
    exact sum_grid h.ll h.ll (fun k => g k (xi + h.ll * yi) / ((h.ll * h.ll : Nat) : ℚ))
  unfold matsubara_kernel
  simp only [hterm]
  have hbase : ∑ xi in Finset.range h.ll, ∑ yi in Finset.range h.ll,
      ∑ dx in Finset.range h.ll, ∑ dy in Finset.range h.ll,
        g ((xi + dx) % h.ll + h.ll * ((yi + dy) % h.ll)) (xi + h.ll * yi) / (h.ls : ℚ)
      = ∑ xi in Finset.range h.ll, ∑ yi in Finset.range h.ll,
          ∑ k in Finset.range h.ls, g k (xi + h.ll * yi) / (h.ls : ℚ) := by
    refine Finset.sum_congr rfl (fun xi hxi => Finset.sum_congr rfl (fun yi hyi => ?_))
    exact hdisp xi yi (Finset.mem_range.mp hxi) (Finset.mem_range.mp hyi)
  rw [hbase, sum_grid h.ll h.ll (fun i => ∑ k in Finset.range h.ls, g k i / (h.ls : ℚ)),
    ← hls, Finset.sum_comm, Finset.sum_div]
  refine Finset.sum_congr rfl (fun a _ => ?_)
  rw [Finset.sum_div]

/-- Claim C20: at target momentum `q = (0,0)` (with `cos 0 = 1` and `ls = ll * ll`), for every
`t < lt` one call of `measure_matsubara_greens(t)` returns and adds exactly
`config_sign * (sum of all ls × ls entries of gt0) / ls` to element `t` of the running sum,
leaving every other element unchanged. -/
theorem matsubara_greens_zero_momentum (lib : Libm) (t : Nat) (h : Hubbard)
    (dm : DynamicMeasure) (hcos : lib.cos 0 = 1) (hq : dm.q = (0, 0))
    (hls : h.ls = h.ll * h.ll) (ht : t < h.lt) :
    ∃ dm1, measure_matsubara_greens lib t h dm = some dm1 ∧
      dm1.matsubara_greens.tmp_value t
        = dm.matsubara_greens.tmp_value t
          + h.config_sign
            * (∑ a in Finset.range h.ls, ∑ b in Finset.range h.ls, gt0 h t a b) / (h.ls : ℚ) ∧
      ∀ k, k ≠ t → dm1.matsubara_greens.tmp_value k = dm.matsubara_greens.tmp_value k := by
  refine ⟨_, measure_matsubara_greens_eq lib t h dm ht, ?_, ?_⟩
  · rw [hq, matsubara_kernel_zero_momentum lib h (gt0 h t) hcos hls]
    simp only [DynamicMeasure.add_matsubara_greens, Vec.add_at, Function.update_same]
    rw [mul_div_assoc]
  · intro k hk
    simp only [DynamicMeasure.add_matsubara_greens, Vec.add_at, Function.update_noteq hk]

/-- Claim C20 on the sample model with identity equal-time Green's function: the call at
`t = 0` adds `1 * 4 / 4 = 1` to element `0`, which was `1`. -/
theorem matsubara_greens_zero_momentum_witness :
    ∃ dm1, measure_matsubara_greens sample_libm 0 sample_hubbard_eqtime sample_measure
        = some dm1 ∧
      dm1.matsubara_greens.tmp_value 0 = 2 := by
  obtain ⟨dm1, h1, h2, _⟩ := matsubara_greens_zero_momentum sample_libm 0 sample_hubbard_eqtime
    sample_measure (by simp [sample_libm]) rfl rfl (by decide)
  refine ⟨dm1, h1, h2.trans ?_⟩
  simp only [gt0, sample_hubbard_eqtime, sample_hubbard, unit_greens, sample_measure,
    sample_observable, Finset.sum_range_succ, Finset.sum_range_zero]
  norm_num

end Dqmc
